import Mathlib

/-!
Verification development for `examples/encdec.cc`.

A shallow embedding of the encoder-decoder example: the graph assembly of
`EncoderDecoder::BuildGraph` and the control logic of `main` (corpus load,
training loop, held-out evaluation and checkpointing).

Conventions of the embedding.

* C++ `unsigned` values are natural numbers reduced modulo `2^32`, `int`
  values are integers obtained by `toInt32`; the only `size_t` computation
  that can wrap, `v.size() - 1`, is `sizeMinusOne`.
* A read `v[i]` of a `std::vector` is `v[i]?`; reading outside the vector is
  undefined behaviour and is modelled by the result `none`.
* The computation graph is the list of nodes added so far; adding a node
  returns its index, exactly as `ComputationGraph::add_*` does.
* The recurrent builder class (`cnn/lstm.h`) is a template parameter of
  `EncoderDecoder`; it is a parameter here as well (`Builder`).
* Calls into collaborators that only matter through the order in which they
  happen (optimizer, shuffling, serialization, vocabulary freeze) are
  recorded in an event trace.
-/

namespace EncDec

/-! ## Machine arithmetic -/

/-- Conversion to C++ `unsigned` (32 bit). -/
def u32 (n : Nat) : Nat := n % 2 ^ 32

/-- The expression `v.size() - 1` evaluated in `size_t` (64 bit): it wraps to
`2^64 - 1` for an empty vector. -/
def sizeMinusOne (size : Nat) : Nat := if size = 0 then 2 ^ 64 - 1 else size - 1

/-- Conversion of a C++ `int` to `unsigned`. -/
def toUnsigned (x : Int) : Nat := (x % 2 ^ 32).toNat

/-- Conversion of an unsigned value to C++ `int` (two's complement, 32 bit). -/
def toInt32 (n : Nat) : Int :=
  if u32 n < 2 ^ 31 then (u32 n : Int) else (u32 n : Int) - 2 ^ 32

/-! ## Globals (lines 19-27) -/

/-- The global configuration variables `LAYERS`, `INPUT_DIM`, `HIDDEN_DIM`,
`INPUT_VOCAB_SIZE`, `OUTPUT_VOCAB_SIZE` (all `unsigned`). -/
structure Globals where
  LAYERS : Nat := 2
  INPUT_DIM : Nat := 8
  HIDDEN_DIM : Nat := 24
  INPUT_VOCAB_SIZE : Nat := 0
  OUTPUT_VOCAB_SIZE : Nat := 0
  deriving Repr, DecidableEq

/-! ## Held-out evaluation and checkpoint (lines 237-242) -/

/-- Result of the serialization `oa << model` (boost archive, not part of the
source file): it either completes or fails with an exception. -/
inductive WriteResult where
  | ok
  | fails
  deriving Repr, DecidableEq

/-- State of the checkpoint block when control leaves it. `best` is the tracked
best loss, `attempted` tells whether line 239-241 were entered, `written`
whether the parameters were written completely, `thrown` whether the block was
left by an exception of the serialization (which `main` does not catch). -/
structure Checkpoint (α : Type) where
  best : α
  attempted : Bool
  written : Bool
  thrown : Bool
  deriving Repr, DecidableEq

/-- Lines 237-242: `if (dloss < best) { best = dloss; ofstream out(fname);
text_oarchive oa(out); oa << model; }`. The assignment to `best` (line 238)
precedes the write (lines 239-241). -/
def devCheckpoint {α : Type} [LT α] [DecidableRel (fun (a b : α) => a < b)]
    (serialize : WriteResult) (best dloss : α) : Checkpoint α :=
  if dloss < best then
    let best1 := dloss
    match serialize with
    | WriteResult.ok => { best := best1, attempted := true, written := true, thrown := false }
    | WriteResult.fails => { best := best1, attempted := true, written := false, thrown := true }
  else
    { best := best, attempted := false, written := false, thrown := false }

/-- Line 169: `double best = 9e+99;`. -/
def initialBest : ℚ := 9e99

/-- The checkpoint block run once per evaluation interval over the held-out
losses `d_1, ..., d_k` (all writes succeeding): returns the final `best` and,
per evaluation, whether parameters were written. -/
def devEvals {α : Type} [LT α] [DecidableRel (fun (a b : α) => a < b)]
    (best : α) : List α → α × List Bool
  | [] => (best, [])
  | d :: ds =>
    let c := devCheckpoint WriteResult.ok best d
    let r := devEvals c.best ds
    (r.1, c.written :: r.2)

/-! ## Computation graph (interface of `cnn/cnn.h` used by the source) -/

/-- Index of a node of the computation graph. -/
abbrev VariableIndex := Nat

/-- The two lookup tables of the model (lines 31-32, 50-51). -/
inductive LookupTable where
  | p_c
  | p_ec
  deriving Repr, DecidableEq

/-- The dense parameters of the model (lines 33-38). -/
inductive Param where
  | p_ie2h
  | p_bie
  | p_h2oe
  | p_boe
  | p_R
  | p_bias
  deriving Repr, DecidableEq

/-- Nodes of the computation graph, one constructor per node kind the source
adds; `recurrent` stands for the nodes a recurrent builder adds internally. -/
inductive Node where
  | lookup (p : LookupTable) (index : Int)
  | parameters (p : Param)
  | concatenate (args : List VariableIndex)
  | affineTransform (args : List VariableIndex)
  | rectify (args : List VariableIndex)
  | pickRange (args : List VariableIndex) (start stop : Nat)
  | tanh (args : List VariableIndex)
  | logSoftmax (args : List VariableIndex)
  | pickElement (args : List VariableIndex) (v : Int)
  | sum (args : List VariableIndex)
  | negate (args : List VariableIndex)
  | recurrent (tag : Nat) (args : List VariableIndex)
  deriving Repr, DecidableEq

/-- The computation graph: the nodes added so far, in order of creation. -/
abbrev ComputationGraph := List Node

/-- Any of `cg.add_lookup`, `cg.add_parameters`, `cg.add_function<F>`:
appends the node and returns its index. -/
def ComputationGraph.add (cg : ComputationGraph) (n : Node) : ComputationGraph × VariableIndex :=
  (cg ++ [n], cg.length)

/-- The recurrent builder the model is instantiated with (template parameter
`Builder`, `LSTMBuilder` in `main`; declared in `cnn/rnn.h`, `cnn/lstm.h`).
Its state type is `σ`. The public interface of `ComputationGraph` only allows
adding nodes, so every operation that receives the graph returns the nodes it
appends. -/
structure Builder (σ : Type) where
  new_graph : σ → ComputationGraph → σ × List Node
  start_new_sequence : σ → List VariableIndex → σ
  add_input : σ → VariableIndex → ComputationGraph → σ × List Node × VariableIndex
  final_h : σ → List VariableIndex

/-- The recurrent members of `EncoderDecoder` (lines 39-41); the parameter
handles `p_*` are the constants of `LookupTable` and `Param`. -/
structure EncoderDecoder (σ : Type) where
  dec_builder : σ
  rev_enc_builder : σ
  fwd_enc_builder : σ
  deriving Repr, DecidableEq

/-- Dimensions given to `add_parameters` in the constructor (lines 46-53).
`long(HIDDEN_DIM * LAYERS * 1.5)` is the product in `unsigned`, times `1.5`
in `double` (exact for a 32-bit value), truncated. -/
def EncoderDecoder.dim (g : Globals) : Param → List Nat
  | Param.p_ie2h => [3 * u32 (g.HIDDEN_DIM * g.LAYERS) / 2, u32 (u32 (g.HIDDEN_DIM * g.LAYERS) * 2)]
  | Param.p_bie => [3 * u32 (g.HIDDEN_DIM * g.LAYERS) / 2]
  | Param.p_h2oe => [u32 (g.HIDDEN_DIM * g.LAYERS), 3 * u32 (g.HIDDEN_DIM * g.LAYERS) / 2]
  | Param.p_boe => [u32 (g.HIDDEN_DIM * g.LAYERS)]
  | Param.p_R => [g.OUTPUT_VOCAB_SIZE, g.HIDDEN_DIM]
  | Param.p_bias => [g.OUTPUT_VOCAB_SIZE]

/-! ## `EncoderDecoder::BuildGraph` (lines 57-110) -/

section BuildGraph

variable {σ : Type}

/-- Lines 61-64: `for (unsigned t = 0; t < insent.size(); ++t)` with body
`i_x_t = cg.add_lookup(p_ec, insent[t]); fwd_enc_builder.add_input(i_x_t, &cg);`.
`fuel` bounds the number of iterations; the counter `t` is `unsigned`. -/
def forwardEncoderLoop (B : Builder σ) (insent : List Int) :
    Nat → Nat → σ × ComputationGraph → Option (σ × ComputationGraph)
  | 0, _, _ => none
  | fuel + 1, t, (fwd, cg) =>
    if t < insent.length then
      match insent[t]? with
      | none => none
      | some x =>
        let (cg1, i_x_t) := cg.add (Node.lookup LookupTable.p_ec x)
        let (fwd1, added, _) := B.add_input fwd i_x_t cg1
        forwardEncoderLoop B insent fuel (u32 (t + 1)) (fwd1, cg1 ++ added)
    else some (fwd, cg)

/-- Lines 68-71: `for (int t = insent.size() - 1; t >= 0; --t)` with body
`i_x_t = cg.add_lookup(p_ec, insent[t]); rev_enc_builder.add_input(i_x_t, &cg);`.
The counter `t` is `int`; in `insent[t]` it is converted to `size_t`. -/
def backwardEncoderLoop (B : Builder σ) (insent : List Int) :
    Nat → Int → σ × ComputationGraph → Option (σ × ComputationGraph)
  | 0, _, _ => none
  | fuel + 1, t, (rev, cg) =>
    if t ≥ 0 then
      match insent[t.toNat]? with
      | none => none
      | some x =>
        let (cg1, i_x_t) := cg.add (Node.lookup LookupTable.p_ec x)
        let (rev1, added, _) := B.add_input rev i_x_t cg1
        backwardEncoderLoop B insent fuel (t - 1) (rev1, cg1 ++ added)
    else some (rev, cg)

/-- Lines 74-78: `vector<VariableIndex> to(LAYERS * 2); int c = 0;` filled with
the final states of the forward, then of the backward encoder, followed by
`assert(c == LAYERS * 2)`. Writing past the end of `to` is undefined and a
failing assertion aborts: both are `none`. -/
def collectFinalStates (g : Globals) (fwd_h rev_h : List VariableIndex) :
    Option (List VariableIndex) :=
  if (fwd_h ++ rev_h).length = u32 (g.LAYERS * 2) then some (fwd_h ++ rev_h) else none

/-- Write `v[i] = x` into a vector; `none` when `i` is outside the vector. -/
def writeAt (v : List VariableIndex) (i : Nat) (x : VariableIndex) : Option (List VariableIndex) :=
  if i < v.length then some (v.set i x) else none

/-- Lines 89-92: `for (int i = 0; i < LAYERS; ++i)` with body
`oein[i] = PickRange({i_nc}, i * HIDDEN_DIM, (i + 1) * HIDDEN_DIM);`
`oein[i + LAYERS] = Tanh({oein[i]});`. The comparison and the products are
evaluated in `unsigned`. -/
def bridgeLoop (g : Globals) (i_nc : VariableIndex) :
    Nat → Nat → ComputationGraph × List VariableIndex →
      Option (ComputationGraph × List VariableIndex)
  | 0, _, _ => none
  | fuel + 1, i, (cg, oein) =>
    if u32 i < g.LAYERS then
      let (cg1, ix) := cg.add
        (Node.pickRange [i_nc] (u32 (i * g.HIDDEN_DIM)) (u32 ((i + 1) * g.HIDDEN_DIM)))
      match writeAt oein i ix with
      | none => none
      | some oein1 =>
        match oein1[i]? with
        | none => none
        | some c =>
          let (cg2, ih) := cg1.add (Node.tanh [c])
          match writeAt oein1 (u32 (i + g.LAYERS)) ih with
          | none => none
          | some oein2 => bridgeLoop g i_nc fuel (i + 1) (cg2, oein2)
    else some (cg, oein)

/-- Lines 79-92: the transformation of the concatenated encoder states into
the initial state `oein` of the decoder. `cg.incremental_forward()` (line 83)
evaluates nodes and adds none. -/
def stateBridge (g : Globals) (to_ : List VariableIndex) (cg : ComputationGraph) :
    Option (ComputationGraph × List VariableIndex) :=
  let (cg, i_combined) := cg.add (Node.concatenate to_)
  let (cg, i_ie2h) := cg.add (Node.parameters Param.p_ie2h)
  let (cg, i_bie) := cg.add (Node.parameters Param.p_bie)
  let (cg, i_t) := cg.add (Node.affineTransform [i_bie, i_ie2h, i_combined])
  let (cg, i_h) := cg.add (Node.rectify [i_t])
  let (cg, i_h2oe) := cg.add (Node.parameters Param.p_h2oe)
  let (cg, i_boe) := cg.add (Node.parameters Param.p_boe)
  let (cg, i_nc) := cg.add (Node.affineTransform [i_boe, i_h2oe, i_h])
  let oein := List.replicate (u32 (g.LAYERS * 2)) 0
  bridgeLoop g i_nc (g.LAYERS + 1) 0 (cg, oein)

/-- State of the decoder loop: the decoder builder, the graph and `errs`. -/
abbrev DecoderState (σ : Type) := σ × ComputationGraph × List VariableIndex

/-- Lines 101-107: `for (unsigned t = 0; t < oslen; ++t)` with the
teacher-forcing body: look up `osent[t]` in `p_c`, advance the decoder, apply
the output layer and `LogSoftmax`, pick the entry of `osent[t+1]`. -/
def decoderLoop (B : Builder σ) (osent : List Int) (i_R i_bias : VariableIndex) (oslen : Nat) :
    Nat → Nat → DecoderState σ → Option (DecoderState σ)
  | 0, _, _ => none
  | fuel + 1, t, (dec, cg, errs) =>
    if t < oslen then
      match osent[t]? with
      | none => none
      | some x =>
        let (cg1, i_x_t) := cg.add (Node.lookup LookupTable.p_c x)
        let (dec1, added, i_y_t) := B.add_input dec i_x_t cg1
        let (cg2, i_r_t) := (cg1 ++ added).add (Node.affineTransform [i_bias, i_R, i_y_t])
        let (cg3, i_ydist) := cg2.add (Node.logSoftmax [i_r_t])
        match osent[u32 (t + 1)]? with
        | none => none
        | some y =>
          let (cg4, e) := cg3.add (Node.pickElement [i_ydist] y)
          decoderLoop B osent i_R i_bias oslen fuel (u32 (t + 1)) (dec1, cg4, errs ++ [e])
    else some (dec, cg, errs)

/-- Lines 97-109: the decoder part of `BuildGraph`, started from the decoder
builder after `start_new_sequence(oein)`. Returns the builder, the graph, the
list `errs` and the index of the `Negate` node that `BuildGraph` returns. -/
def decoder (B : Builder σ) (osent : List Int) (dec : σ) (cg : ComputationGraph) :
    Option (σ × ComputationGraph × List VariableIndex × VariableIndex) :=
  let (cg, i_R) := cg.add (Node.parameters Param.p_R)
  let (cg, i_bias) := cg.add (Node.parameters Param.p_bias)
  let oslen := u32 (sizeMinusOne osent.length)
  match decoderLoop B osent i_R i_bias oslen (oslen + 1) 0 (dec, cg, []) with
  | none => none
  | some (dec, cg, errs) =>
    let (cg, i_nerr) := cg.add (Node.sum errs)
    let (cg, r) := cg.add (Node.negate [i_nerr])
    some (dec, cg, errs, r)

/-- Lines 59-64: the forward encoder. -/
def forwardEncoder (B : Builder σ) (insent : List Int) (fwd : σ) (cg : ComputationGraph) :
    Option (σ × ComputationGraph) :=
  let (fwd, added) := B.new_graph fwd cg
  let cg := cg ++ added
  let fwd := B.start_new_sequence fwd []
  forwardEncoderLoop B insent (insent.length + 1) 0 (fwd, cg)

/-- Lines 66-71: the backward encoder. The initial value of the `int` counter
is `insent.size() - 1`, computed in `size_t` and converted. -/
def backwardEncoder (B : Builder σ) (insent : List Int) (rev : σ) (cg : ComputationGraph) :
    Option (σ × ComputationGraph) :=
  let (rev, added) := B.new_graph rev cg
  let cg := cg ++ added
  let rev := B.start_new_sequence rev []
  let t0 := toInt32 (sizeMinusOne insent.length)
  backwardEncoderLoop B insent (t0.toNat + 2) t0 (rev, cg)

/-- The method `BuildGraph(insent, osent, cg)`: returns the model with its builders
advanced, the graph, and the index of the loss node. -/
def BuildGraph (B : Builder σ) (g : Globals) (lm : EncoderDecoder σ)
    (insent osent : List Int) (cg : ComputationGraph) :
    Option (EncoderDecoder σ × ComputationGraph × VariableIndex) :=
  match forwardEncoder B insent lm.fwd_enc_builder cg with
  | none => none
  | some (fwd, cg) =>
    match backwardEncoder B insent lm.rev_enc_builder cg with
    | none => none
    | some (rev, cg) =>
      -- encoder -> decoder transformation
      match collectFinalStates g (B.final_h fwd) (B.final_h rev) with
      | none => none
      | some to_ =>
        match stateBridge g to_ cg with
        | none => none
        | some (cg, oein) =>
          let (dec, added) := B.new_graph lm.dec_builder cg
          let cg := cg ++ added
          let dec := B.start_new_sequence dec oein
          -- decoder
          match decoder B osent dec cg with
          | none => none
          | some (dec, cg, _, r) =>
            some ({ dec_builder := dec, rev_enc_builder := rev, fwd_enc_builder := fwd }, cg, r)

end BuildGraph

/-! ### The steps of `BuildGraph` as the specification words them -/

section Specification

variable {σ : Type}

/-- One encoder step in the words of the specification: the token is embedded
with the shared input table `p_ec` and the recurrent pass consumes the
embedding. -/
def encoderStep (B : Builder σ) (st : σ × ComputationGraph) (token : Int) :
    σ × ComputationGraph :=
  let embedded := st.2.add (Node.lookup LookupTable.p_ec token)
  let advanced := B.add_input st.1 embedded.2 embedded.1
  (advanced.1, embedded.1 ++ advanced.2.1)

/-- One decoder step in the words of the specification, for the pair (true
token at position `t`, true token at position `t+1`): embed the former with
the decoder table `p_c`, advance the recurrent unit, project the new hidden
state to logits, log-normalize, extract the entry of the latter. -/
def teacherForcedStep (B : Builder σ) (i_R i_bias : VariableIndex) (st : DecoderState σ)
    (tokens : Int × Int) : DecoderState σ :=
  let embedded := st.2.1.add (Node.lookup LookupTable.p_c tokens.1)
  let advanced := B.add_input st.1 embedded.2 embedded.1
  let logits := (embedded.1 ++ advanced.2.1).add (Node.affineTransform [i_bias, i_R, advanced.2.2])
  let logProbs := logits.1.add (Node.logSoftmax [logits.2])
  let picked := logProbs.1.add (Node.pickElement [logProbs.2] tokens.2)
  (advanced.1, picked.1, st.2.2 ++ [picked.2])

/-- The decoder part in the words of the specification: from the graph with the
output weight and bias added, one `teacherForcedStep` per position `t` from
`0` to `len(target) - 2`, then the sum of the extracted log-probabilities and
its negation, which is the loss. -/
def teacherForcedDecoder (B : Builder σ) (target : List Int) (dec : σ) (cg : ComputationGraph) :
    σ × ComputationGraph × List VariableIndex × VariableIndex :=
  let steps := (target.zip target.tail).foldl (teacherForcedStep B cg.length (cg.length + 1))
    (dec, cg ++ [Node.parameters Param.p_R, Node.parameters Param.p_bias], [])
  (steps.1, steps.2.1 ++ [Node.sum steps.2.2, Node.negate [steps.2.1.length]], steps.2.2,
    steps.2.1.length + 1)

/-- The builder `B` with a log of the nodes it was given as inputs: the state
is paired with the list of the graph nodes passed to `add_input`, in order. -/
def recording (B : Builder σ) : Builder (σ × List (Option Node)) where
  new_graph s cg := (((B.new_graph s.1 cg).1, s.2), (B.new_graph s.1 cg).2)
  start_new_sequence s h_0 := (B.start_new_sequence s.1 h_0, s.2)
  add_input s x cg :=
    (((B.add_input s.1 x cg).1, s.2 ++ [cg[x]?]), (B.add_input s.1 x cg).2.1,
      (B.add_input s.1 x cg).2.2)
  final_h s := B.final_h s.1

/-- The token a `PickElement` node extracts. -/
def Node.picked : Node → Option Int
  | Node.pickElement _ v => some v
  | _ => none

end Specification

/-- A small concrete recurrent builder used to run `BuildGraph`: per input it
adds one `recurrent` node per layer, reading the input and the previous
state, and its state is the list of indices of the nodes added last. -/
structure LayerStack where
  layers : Nat
  h : List VariableIndex
  deriving Repr, DecidableEq

/-- The operations of `LayerStack`. -/
def layerStack : Builder LayerStack where
  new_graph s _ := (s, [])
  start_new_sequence s h_0 := { s with h := h_0 }
  add_input s x cg :=
    ({ s with h := (List.range s.layers).map (fun l => cg.length + l) },
      (List.range s.layers).map (fun l => Node.recurrent l (x :: s.h)),
      cg.length + s.layers - 1)
  final_h s := s.h.take s.layers

/-! ## `main`: corpus load (lines 126-160) -/

/-- Outcome of one of the two load loops. -/
inductive LoadResult where
  /-- The loop read every line; the corpus is returned. -/
  | loaded (corpus : List (List Int))
  /-- The check of line `lineNo` (counted from 1) called `abort()`. -/
  | aborted (lineNo : Nat)
  /-- The check of line `lineNo` called `front()`/`back()` on an empty
  sentence, which is undefined behaviour. -/
  | undefined (lineNo : Nat)
  deriving Repr, DecidableEq

/-- Lines 129-137 (and 150-158): `while (getline(in, line))` with body
`++tlc; training.push_back(ReadSentence(line, &d));` and the check
`if (training.back().front() != kSOS && training.back().back() != kEOS) abort();`.
The first argument lists, per line of the file, the sentence `ReadSentence`
returns for it (`ReadSentence` and the dictionary are in `cnn/dict.h`). -/
def readCorpus (kSOS kEOS : Int) : List (List Int) → Nat → List (List Int) → LoadResult
  | [], _, corpus => LoadResult.loaded corpus
  | sent :: rest, tlc, corpus =>
    match sent.head?, sent.getLast? with
    | some front, some back =>
      if front ≠ kSOS ∧ back ≠ kEOS then LoadResult.aborted (tlc + 1)
      else readCorpus kSOS kEOS rest (tlc + 1) (corpus ++ [sent])
    | _, _ => LoadResult.undefined (tlc + 1)

/-- The sentence has a first and a last token, the first is not the start
marker and the last is not the end marker. -/
def lacksBothMarkers (kSOS kEOS : Int) (sent : List Int) : Prop :=
  ∃ a b, sent.head? = some a ∧ sent.getLast? = some b ∧ a ≠ kSOS ∧ b ≠ kEOS

/-! ## `main`: training loop (lines 188-245) -/

/-- Calls into the collaborators of `main`, in the order they happen. -/
inductive Event where
  /-- Line 140, `d.Freeze()`. -/
  | freeze
  /-- Line 203, `sgd->update_epoch()`. -/
  | update_epoch
  /-- Line 205, `random_shuffle(order.begin(), order.end())`. -/
  | shuffle
  /-- Line 213, `lm.BuildGraph(sent, sent, cg)` for `sent = training[k]`. -/
  | buildGraph (k : Nat)
  /-- Line 214, `cg.forward()`. -/
  | forward
  /-- Line 215, `cg.backward()`. -/
  | backward
  /-- Line 216, `sgd->update()`. -/
  | update
  /-- Line 219, `sgd->status()`. -/
  | status
  /-- Lines 233-234, `BuildGraph` and `forward` for the held-out sentence `k`. -/
  | evaluate (k : Nat)
  /-- Lines 239-241, the attempt to write the parameters. -/
  | save (result : WriteResult)
  deriving Repr, DecidableEq

/-- What `main` receives from outside: the random source of `random_shuffle`
(with state `ρ`), the total held-out loss `dloss` computed in the evaluation
that follows report number `report`, and the result of the serialization
attempted there. -/
structure World (α ρ : Type) where
  random_shuffle : ρ → List Nat → ρ × List Nat
  dloss : Int → α
  serialize : Int → WriteResult
  /-- The call `std::random_shuffle` reorders the range it is given. -/
  shuffle_perm : ∀ (r : ρ) (l : List Nat), (random_shuffle r l).2.Perm l

/-- Local variables of `main` that live across iterations of `while(1)`
(lines 169, 190-195), the state of the random source and the event trace. -/
structure TrainState (α ρ : Type) where
  best : α
  si : Nat
  order : List Nat
  first : Bool
  report : Int
  lines : Nat
  rng : ρ
  trace : List Event

/-- Where control is after some part of `main` ran. -/
inductive Outcome (S : Type) where
  /-- Control is inside `while(1)` with local state `s`. -/
  | running (s : S)
  /-- An exception of the serialization left `main` in local state `s`. -/
  | terminated (s : S)
  /-- An out-of-bounds read happened. -/
  | undefined

section TrainingLoop

variable {α ρ : Type}

/-- Lines 201-206: the epoch boundary at the top of the `for` body. -/
def epochBoundary (W : World α ρ) (size : Nat) (s : TrainState α ρ) : TrainState α ρ :=
  if s.si = size then
    let trace1 := if s.first then s.trace else s.trace ++ [Event.update_epoch]
    let shuffled := W.random_shuffle s.rng s.order
    { s with si := 0, first := false, rng := shuffled.1, order := shuffled.2,
             trace := trace1 ++ [Event.shuffle] }
  else s

/-- Lines 201-217: one iteration of `for (unsigned i = 0; i < report_every_i; ++i)`.
`loss` and `chars` only feed the report on `cerr` and are left out. The reads
`order[si]` and `training[order[si]]` are checked. -/
def trainingIteration (W : World α ρ) (training : List (List Int)) (s : TrainState α ρ) :
    Option (TrainState α ρ) :=
  let s1 := epochBoundary W training.length s
  match s1.order[s1.si]? with
  | none => none
  | some k =>
    match training[k]? with
    | none => none
    | some _ =>
      some { s1 with si := u32 (s1.si + 1), lines := u32 (s1.lines + 1),
                     trace := s1.trace ++
                       [Event.buildGraph k, Event.forward, Event.backward, Event.update] }

/-- The first `k` iterations of the `for` loop of lines 200-218. -/
def trainingIterations (W : World α ρ) (training : List (List Int)) :
    Nat → TrainState α ρ → Option (TrainState α ρ)
  | 0, s => some s
  | k + 1, s =>
    match trainingIteration W training s with
    | none => none
    | some s1 => trainingIterations W training k s1

/-- Line 188, `unsigned report_every_i = 50;`. -/
def report_every_i : Nat := 50

/-- Line 189, `unsigned dev_every_i_reports = 10;`. -/
def dev_every_i_reports : Nat := 10

/-- Lines 219-244: status, `report++`, and every `dev_every_i_reports` reports
the held-out evaluation followed by the checkpoint block. In the comparison
`report % dev_every_i_reports == 0` the `int` is converted to `unsigned`. -/
def reportAndEvaluate [LT α] [DecidableRel (fun (a b : α) => a < b)]
    (W : World α ρ) (dev : List (List Int)) (s : TrainState α ρ) : Outcome (TrainState α ρ) :=
  let s1 := { s with trace := s.trace ++ [Event.status], report := s.report + 1 }
  if toUnsigned s1.report % dev_every_i_reports = 0 then
    let evaluated := s1.trace ++ (List.range dev.length).map Event.evaluate
    let c := devCheckpoint (W.serialize s1.report) s1.best (W.dloss s1.report)
    let trace2 := if c.attempted then evaluated ++ [Event.save (W.serialize s1.report)]
                  else evaluated
    if c.thrown then Outcome.terminated { s1 with best := c.best, trace := trace2 }
    else Outcome.running { s1 with best := c.best, trace := trace2 }
  else Outcome.running s1

/-- Lines 197-244: the body of `while(1)`. -/
def whileBody [LT α] [DecidableRel (fun (a b : α) => a < b)]
    (W : World α ρ) (training dev : List (List Int)) (s : TrainState α ρ) :
    Outcome (TrainState α ρ) :=
  match trainingIterations W training report_every_i s with
  | none => Outcome.undefined
  | some s1 => reportAndEvaluate W dev s1

/-- Lines 169 and 190-195: the local state when `while(1)` is entered. `si` is
`unsigned`; `order` has `training.size()` entries, filled with `0, 1, ...` by
the loop of line 192. -/
def initialState (best : α) (rng : ρ) (training : List (List Int)) (trace : List Event) :
    TrainState α ρ :=
  { best := best, si := u32 training.length, order := List.range training.length,
    first := true, report := 0, lines := 0, rng := rng, trace := trace }

/-- The first `n` iterations of `while(1)` (lines 196-245). -/
def mainLoop [LT α] [DecidableRel (fun (a b : α) => a < b)]
    (W : World α ρ) (training dev : List (List Int)) :
    Nat → TrainState α ρ → Outcome (TrainState α ρ)
  | 0, s => Outcome.running s
  | n + 1, s =>
    match whileBody W training dev s with
    | Outcome.running s1 => mainLoop W training dev n s1
    | Outcome.terminated s1 => Outcome.terminated s1
    | Outcome.undefined => Outcome.undefined

/-- How `main` ends, or that it is still in the training loop. -/
inductive MainResult (S : Type) where
  /-- Line 117, `return 1` after the usage message. -/
  | usage
  /-- Line 135, `abort()` at line `tlc` of the training corpus; `trace` lists
  the events that happened before. -/
  | abortTraining (tlc : Nat) (trace : List Event)
  /-- Line 156, `abort()` at line `dlc` of the held-out corpus. -/
  | abortDev (dlc : Nat) (trace : List Event)
  /-- Undefined behaviour while loading (empty sentence). -/
  | undefinedLoad (trace : List Event)
  /-- The training loop was entered; where it is after `n` iterations. -/
  | training (o : Outcome S)

/-- The function `main` (lines 113-247), observed for the first `n` iterations
of `while(1)`. `kSOS` and `kEOS` are the ids `d.Convert` returns at lines
119-120. Loading a model from `argv[3]` (lines 181-186) changes parameter
values only and is left out. -/
def main [LT α] [DecidableRel (fun (a b : α) => a < b)]
    (W : World α ρ) (argc : Nat) (kSOS kEOS : Int) (trainFile devFile : List (List Int))
    (best : α) (rng : ρ) (n : Nat) : MainResult (TrainState α ρ) :=
  if argc ≠ 3 ∧ argc ≠ 4 then MainResult.usage
  else
    match readCorpus kSOS kEOS trainFile 0 [] with
    | LoadResult.aborted tlc => MainResult.abortTraining tlc []
    | LoadResult.undefined _ => MainResult.undefinedLoad []
    | LoadResult.loaded training =>
      let trace := [Event.freeze]
      match readCorpus kSOS kEOS devFile 0 [] with
      | LoadResult.aborted dlc => MainResult.abortDev dlc trace
      | LoadResult.undefined _ => MainResult.undefinedLoad trace
      | LoadResult.loaded dev =>
        MainResult.training (mainLoop W training dev n (initialState best rng training trace))

end TrainingLoop

/-! ### Reading the event trace -/

/-- The training sentences processed so far, grouped by the shuffles: `complete`
lists, in order, the sentences processed between two consecutive shuffles,
`current` those processed since the last shuffle (`none` before the first). -/
structure Epochs where
  complete : List (List Nat)
  current : Option (List Nat)
  deriving Repr, DecidableEq

/-- Effect of one event on the grouping. -/
def Epochs.step (e : Epochs) : Event → Epochs
  | Event.shuffle =>
    match e.current with
    | none => { complete := e.complete, current := some [] }
    | some c => { complete := e.complete ++ [c], current := some [] }
  | Event.buildGraph k => { complete := e.complete, current := e.current.map (fun c => c ++ [k]) }
  | _ => e

/-- The grouping of a whole trace. -/
def epochsOf (trace : List Event) : Epochs :=
  trace.foldl Epochs.step { complete := [], current := none }

/-- What holds of the local state of `main` right after the epoch boundary of
an iteration, before `training[order[si]]` is read. -/
def MidInvariant {α ρ : Type} (N : Nat) (s : TrainState α ρ) : Prop :=
  s.order.Perm (List.range N) ∧ s.si < N ∧ s.first = false ∧
  1 ≤ s.trace.count Event.shuffle ∧
  s.trace.count Event.update = (s.trace.count Event.shuffle - 1) * N + s.si ∧
  s.trace.count Event.update_epoch + 1 = s.trace.count Event.shuffle ∧
  (epochsOf s.trace).current = some (s.order.take s.si) ∧
  (epochsOf s.trace).complete.length + 1 = s.trace.count Event.shuffle ∧
  (∀ seg ∈ (epochsOf s.trace).complete, seg.Perm (List.range N)) ∧
  (∀ p, p <+: s.trace → p.count Event.update_epoch * N ≤ p.count Event.update)

/-- What holds of the local state of `main` between two iterations of the `for`
loop, for a training corpus of `N` sentences. -/
def TrainInvariant {α ρ : Type} (N : Nat) (s : TrainState α ρ) : Prop :=
  s.order.Perm (List.range N) ∧ s.si ≤ N ∧
  (s.first = true → s.si = N ∧ s.trace.count Event.update = 0 ∧
    s.trace.count Event.shuffle = 0 ∧ s.trace.count Event.update_epoch = 0 ∧
    epochsOf s.trace = { complete := [], current := none }) ∧
  (s.first = false → 1 ≤ s.si ∧ 1 ≤ s.trace.count Event.shuffle ∧
    s.trace.count Event.update = (s.trace.count Event.shuffle - 1) * N + s.si ∧
    s.trace.count Event.update_epoch + 1 = s.trace.count Event.shuffle ∧
    (epochsOf s.trace).current = some (s.order.take s.si) ∧
    (epochsOf s.trace).complete.length + 1 = s.trace.count Event.shuffle ∧
    (∀ seg ∈ (epochsOf s.trace).complete, seg.Perm (List.range N))) ∧
  (∀ p, p <+: s.trace → p.count Event.update_epoch * N ≤ p.count Event.update)

/-- A concrete world used to run `main`: the shuffle rotates the order by one
position, the held-out loss after report `r` is `10 - r / 100`, every write
succeeds. -/
def rotatingWorld : World ℚ Nat where
  random_shuffle r l := (r + 1, l.rotate 1)
  dloss r := 10 - (r : ℚ) / 100
  serialize _ := WriteResult.ok
  shuffle_perm _ l := List.rotate_perm l 1

end EncDec
namespace EncDec

/-! ## Checkpoint on improvement -/

section Checkpoint

variable {α : Type} [LinearOrder α]

theorem devCheckpoint_ok_best (best d : α) :
    (devCheckpoint WriteResult.ok best d).best = min best d := by
  unfold devCheckpoint
  by_cases h : d < best
  · simp [h, min_eq_right (le_of_lt h)]
  · simp [h, min_eq_left (not_lt.mp h)]

theorem devCheckpoint_ok_written (best d : α) :
    (devCheckpoint WriteResult.ok best d).written = decide (d < best) := by
  unfold devCheckpoint
  by_cases h : d < best <;> simp [h]

theorem devEvals_best (best : α) (ds : List α) :
    (devEvals best ds).1 = ds.foldl min best := by
  induction ds generalizing best with
  | nil => rfl
  | cons d ds ih => simp [devEvals, ih, devCheckpoint_ok_best]

theorem devEvals_length (best : α) (ds : List α) :
    (devEvals best ds).2.length = ds.length := by
  induction ds generalizing best with
  | nil => rfl
  | cons d ds ih => simp [devEvals, ih]

theorem lt_foldl_min_iff (best d : α) (ds : List α) :
    d < ds.foldl min best ↔ d < best ∧ ∀ e ∈ ds, d < e := by
  induction ds generalizing best with
  | nil => simp
  | cons e ds ih => simp [ih, lt_min_iff, and_assoc]

theorem devEvals_write (best : α) (ds : List α) (j : Nat) (d : α) (hd : ds[j]? = some d) :
    (devEvals best ds).2[j]? = some (decide (d < (ds.take j).foldl min best)) := by
  induction ds generalizing best j with
  | nil => simp at hd
  | cons e ds ih =>
    cases j with
    | zero =>
      simp at hd
      simp [devEvals, devCheckpoint_ok_written, hd]
    | succ j =>
      simp at hd
      simp [devEvals, ih _ j hd, devCheckpoint_ok_best]

theorem reportAndEvaluate_ok {ρ : Type} (W : World α ρ) (dev : List (List Int))
    (s : TrainState α ρ) (hok : W.serialize (s.report + 1) = WriteResult.ok) :
    reportAndEvaluate W dev s = Outcome.running
      (if toUnsigned (s.report + 1) % dev_every_i_reports = 0 then
        { s with best := min s.best (W.dloss (s.report + 1)), report := s.report + 1,
                 trace := s.trace ++ [Event.status]
                   ++ (List.range dev.length).map Event.evaluate
                   ++ (if W.dloss (s.report + 1) < s.best then [Event.save WriteResult.ok]
                       else []) }
       else { s with report := s.report + 1, trace := s.trace ++ [Event.status] }) := by
  unfold reportAndEvaluate
  by_cases hc : toUnsigned (s.report + 1) % dev_every_i_reports = 0
  · by_cases hlt : W.dloss (s.report + 1) < s.best
    · simp [hc, hok, devCheckpoint, hlt, min_eq_right (le_of_lt hlt)]
    · simp [hc, hok, devCheckpoint, hlt, min_eq_left (not_lt.mp hlt)]
  · simp [hc]

/-- C1: over any sequence of held-out losses, parameters are written at
evaluation `j` exactly when the loss `d_j` is strictly below the initial best
and below every earlier loss; after evaluation `j` the tracked best is the
minimum of the initial best and `d_1..d_j`; for `[10, 9, 9.5, 8]` from the
initial best `9e99` the writes are yes, yes, no, yes. In `main`, the block
after a report sets `best` to the minimum of `best` and the held-out loss and
attempts the write exactly when the loss is strictly below `best`. -/
theorem C1_checkpoint_on_improvement {ρ : Type} (best : α) (ds : List α) :
    (devEvals best ds).2.length = ds.length ∧
    (∀ j d, ds[j]? = some d →
      (((devEvals best ds).2[j]? = some true ↔ (d < best ∧ ∀ e ∈ ds.take j, d < e)) ∧
       ((devEvals best ds).2[j]? = some false ↔ ¬ (d < best ∧ ∀ e ∈ ds.take j, d < e)) ∧
       (devEvals best (ds.take (j + 1))).1 = (ds.take (j + 1)).foldl min best)) ∧
    (devEvals best ds).1 = ds.foldl min best ∧
    devEvals initialBest [10, 9, 19 / 2, 8] = (8, [true, true, false, true]) ∧
    (∀ (W : World α ρ) (dev : List (List Int)) (s : TrainState α ρ),
      W.serialize (s.report + 1) = WriteResult.ok →
      reportAndEvaluate W dev s = Outcome.running
        (if toUnsigned (s.report + 1) % dev_every_i_reports = 0 then
          { s with best := min s.best (W.dloss (s.report + 1)), report := s.report + 1,
                   trace := s.trace ++ [Event.status]
                     ++ (List.range dev.length).map Event.evaluate
                     ++ (if W.dloss (s.report + 1) < s.best then [Event.save WriteResult.ok]
                         else []) }
         else { s with report := s.report + 1, trace := s.trace ++ [Event.status] })) := by
  refine ⟨devEvals_length best ds, ?_, devEvals_best best ds, ?_, reportAndEvaluate_ok⟩
  · intro j d hd
    rw [devEvals_write best ds j d hd, devEvals_best]
    have h := lt_foldl_min_iff best d (ds.take j)
    refine ⟨?_, ?_, rfl⟩
    · simp [h]
    · simp [h]
  · simp [devEvals, devCheckpoint, initialBest]
    norm_num

end Checkpoint

/-- Witness of `C1_checkpoint_on_improvement`: in the sequence `[10, 9, 9.5, 8]`
from the initial best `9e99`, the third evaluation (loss `9.5`, after `9`)
writes nothing and the fourth (loss `8`) writes. -/
theorem C1_checkpoint_on_improvement_witness :
    ([10, 9, 19 / 2, 8] : List ℚ)[2]? = some (19 / 2) ∧
    (devEvals initialBest [10, 9, 19 / 2, 8]).2[2]? = some false ∧
    ([10, 9, 19 / 2, 8] : List ℚ)[3]? = some 8 ∧
    (devEvals initialBest [10, 9, 19 / 2, 8]).2[3]? = some true :=
  ⟨rfl,
    ((@C1_checkpoint_on_improvement ℚ _ Unit initialBest [10, 9, 19 / 2, 8]).2.1 2 (19 / 2)
      rfl).2.1.mpr (fun h => absurd (h.2 9 (by simp)) (by norm_num)),
    rfl,
    ((@C1_checkpoint_on_improvement ℚ _ Unit initialBest [10, 9, 19 / 2, 8]).2.1 3 8
      rfl).1.mpr ⟨by simp [initialBest]; norm_num, by
        intro e he
        simp at he
        rcases he with rfl | rfl | rfl <;> norm_num⟩⟩

/-- C4 (as stated, refuted): with initial best `9e99`, held-out loss `10` and a
failing serialization, the tracked best is `10` when the block is left, not
the previous value, and a later evaluation with the same loss does not attempt
the write. -/
theorem C4_counterexample :
    (10 : ℚ) < initialBest ∧
    (devCheckpoint WriteResult.fails initialBest (10 : ℚ)).best ≠ initialBest ∧
    (devCheckpoint WriteResult.ok
      (devCheckpoint WriteResult.fails initialBest (10 : ℚ)).best 10).attempted = false := by
  simp [devCheckpoint, initialBest]
  norm_num

/-- C4 (amended): when the held-out loss improves and the serialization fails,
the block is left by the exception with the tracked best already set to the
new loss (line 238 precedes the write) and nothing written; an evaluation
with the same loss afterwards does not attempt a write; in `main` the
exception ends the run in that state. -/
theorem C4_best_updated_before_write {α ρ : Type} [LinearOrder α]
    (best dloss : α) (himp : dloss < best) :
    (devCheckpoint WriteResult.fails best dloss).best = dloss ∧
    (devCheckpoint WriteResult.fails best dloss).attempted = true ∧
    (devCheckpoint WriteResult.fails best dloss).written = false ∧
    (devCheckpoint WriteResult.fails best dloss).thrown = true ∧
    (∀ w, (devCheckpoint w (devCheckpoint WriteResult.fails best dloss).best dloss).attempted
      = false) ∧
    (∀ (W : World α ρ) (dev : List (List Int)) (s : TrainState α ρ),
      toUnsigned (s.report + 1) % dev_every_i_reports = 0 →
      s.best = best → W.dloss (s.report + 1) = dloss →
      W.serialize (s.report + 1) = WriteResult.fails →
      ∃ s1, reportAndEvaluate W dev s = Outcome.terminated s1 ∧ s1.best = dloss) := by
  refine ⟨?_, ?_, ?_, ?_, ?_, ?_⟩
  · simp [devCheckpoint, himp]
  · simp [devCheckpoint, himp]
  · simp [devCheckpoint, himp]
  · simp [devCheckpoint, himp]
  · intro w
    simp [devCheckpoint, himp]
  · intro W dev s hrep hbest hd hw
    subst hbest
    simp [reportAndEvaluate, hrep, hd, hw, devCheckpoint, himp]

/-- Witness of `C4_best_updated_before_write`: initial best `9e99`, loss `10`. -/
theorem C4_best_updated_before_write_witness :
    (10 : ℚ) < initialBest ∧ (devCheckpoint WriteResult.fails initialBest (10 : ℚ)).best = 10 :=
  ⟨by simp [initialBest]; norm_num,
  (@C4_best_updated_before_write ℚ Unit _ initialBest (10 : ℚ)
    (by simp [initialBest]; norm_num)).1⟩

/-- C2 (the code at the failing input): with `kSOS = 0`, `kEOS = 1`, the
one-line corpus `<s> a` (ids `[0, 2]`) is loaded without abort although its
last token is not the end marker; likewise `a </s>` (ids `[2, 1]`). -/
theorem C2_load_accepts_one_missing_marker :
    readCorpus 0 1 [[0, 2]] 0 [] = LoadResult.loaded [[0, 2]] ∧
    [(0 : Int), 2].getLast? ≠ some 1 ∧
    readCorpus 0 1 [[2, 1]] 0 [] = LoadResult.loaded [[2, 1]] ∧
    [(2 : Int), 1].head? ≠ some 0 ∧
    main rotatingWorld 3 0 1 [[0, 2]] [[0, 1]] initialBest 0 0
      = MainResult.training
          (Outcome.running (initialState initialBest 0 [[0, 2]] [Event.freeze])) :=
  ⟨by decide, by decide, by decide, by decide, rfl⟩

/-! ## Corpus load -/

theorem readCorpus_aborts_at_first_bad_line (kSOS kEOS : Int) (pre : List (List Int))
    (line : List Int) (post : List (List Int)) (tlc : Nat) (corpus : List (List Int))
    (hpre : ∀ s ∈ pre, s ≠ []) (hbad : lacksBothMarkers kSOS kEOS line) :
    ∃ j, j ≤ pre.length ∧
      readCorpus kSOS kEOS (pre ++ line :: post) tlc corpus = LoadResult.aborted (tlc + j + 1) ∧
      (∃ bad, (pre ++ line :: post)[j]? = some bad ∧ lacksBothMarkers kSOS kEOS bad) ∧
      ((∀ s ∈ pre, ¬ lacksBothMarkers kSOS kEOS s) → j = pre.length) := by
  induction pre generalizing tlc corpus with
  | nil =>
    obtain ⟨a, b, ha, hb, hab⟩ := hbad
    refine ⟨0, le_refl _, ?_, ⟨line, by simp, a, b, ha, hb, hab⟩, fun _ => rfl⟩
    simp [readCorpus, ha, hb, hab]
  | cons s pre ih =>
    have hs : s ≠ [] := hpre s (by simp)
    obtain ⟨a, ha⟩ : ∃ a, s.head? = some a := by
      cases s with
      | nil => exact absurd rfl hs
      | cons x xs => exact ⟨x, rfl⟩
    obtain ⟨b, hb⟩ : ∃ b, s.getLast? = some b :=
      ⟨s.getLast hs, List.getLast?_eq_getLast s hs⟩
    by_cases hc : a ≠ kSOS ∧ b ≠ kEOS
    · refine ⟨0, Nat.zero_le _, ?_, ⟨s, by simp, a, b, ha, hb, hc⟩, ?_⟩
      · simp [readCorpus, ha, hb, hc]
      · intro hall
        exact absurd ⟨a, b, ha, hb, hc⟩ (hall s (by simp))
    · obtain ⟨j, hj, hres, hbadj, hfirst⟩ :=
        ih (tlc + 1) (corpus ++ [s]) (fun t ht => hpre t (by simp [ht]))
      refine ⟨j + 1, by simpa using hj, ?_, ?_, ?_⟩
      · have : tlc + (j + 1) + 1 = tlc + 1 + j + 1 := by omega
        simp only [List.cons_append, readCorpus, ha, hb, hc, if_false, this]
        exact hres
      · simpa using hbadj
      · intro hall
        rw [hfirst (fun t ht => hall t (by simp [ht]))]
        simp

/-- C8: a training corpus with a line whose first token is not the start
marker and whose last token is not the end marker makes `main` abort in the
training load loop, at the first such line (at that very line when no earlier
line lacks both markers), with no event before it: the vocabulary is not
frozen and no training step has run. -/
theorem C8_fatal_load {α ρ : Type} [LinearOrder α] (W : World α ρ) (argc : Nat)
    (kSOS kEOS : Int) (pre : List (List Int)) (line : List Int) (post devFile : List (List Int))
    (best : α) (rng : ρ) (n : Nat)
    (hargc : argc = 3 ∨ argc = 4) (hpre : ∀ s ∈ pre, s ≠ [])
    (hbad : lacksBothMarkers kSOS kEOS line) :
    ∃ j, j ≤ pre.length ∧
      main W argc kSOS kEOS (pre ++ line :: post) devFile best rng n
        = MainResult.abortTraining (j + 1) [] ∧
      (∃ bad, (pre ++ line :: post)[j]? = some bad ∧ lacksBothMarkers kSOS kEOS bad) ∧
      ((∀ s ∈ pre, ¬ lacksBothMarkers kSOS kEOS s) → j = pre.length) := by
  obtain ⟨j, hj, hres, hbadj, hfirst⟩ :=
    readCorpus_aborts_at_first_bad_line kSOS kEOS pre line post 0 [] hpre hbad
  refine ⟨j, hj, ?_, hbadj, hfirst⟩
  have hargc2 : ¬ (argc ≠ 3 ∧ argc ≠ 4) := by omega
  simp only [main, hargc2, if_false, hres]
  simp

/-- Witness of `C8_fatal_load`: the corpus `<s> a </s>`, `a b` (ids `[0, 2, 1]`,
`[2, 3]` with `kSOS = 0`, `kEOS = 1`) aborts at line 2. -/
theorem C8_fatal_load_witness :
    (3 = 3 ∨ 3 = 4) ∧ (∀ s ∈ [[(0 : Int), 2, 1]], s ≠ []) ∧ lacksBothMarkers 0 1 [2, 3] ∧
    ∃ j, j ≤ 1 ∧ main rotatingWorld 3 0 1 ([[0, 2, 1]] ++ [2, 3] :: []) [[0, 1]] initialBest 0 5
      = MainResult.abortTraining (j + 1) [] :=
  ⟨Or.inl rfl, by simp, ⟨2, 3, rfl, rfl, by decide, by decide⟩,
    (C8_fatal_load rotatingWorld 3 0 1 [[0, 2, 1]] [2, 3] [] [[0, 1]] initialBest 0 5
      (Or.inl rfl) (by simp) ⟨2, 3, rfl, rfl, by decide, by decide⟩).imp
      (fun _ h => ⟨h.1, h.2.1⟩)⟩

/-! ## Machine arithmetic facts -/

theorem u32_of_lt {n : Nat} (h : n < 2 ^ 32) : u32 n = n := Nat.mod_eq_of_lt h

theorem sizeMinusOne_of_pos {n : Nat} (h1 : 1 ≤ n) : sizeMinusOne n = n - 1 := by
  unfold sizeMinusOne
  split <;> omega

theorem toInt32_sizeMinusOne {n : Nat} (h : n < 2 ^ 31) :
    toInt32 (sizeMinusOne n) = (n : Int) - 1 := by
  unfold toInt32 sizeMinusOne u32
  split <;> split <;> omega

/-! ## Encoder loops -/

section Encoder

variable {σ : Type}

theorem forwardEncoderLoop_eq (B : Builder σ) (insent : List Int) (hlen : insent.length < 2 ^ 32)
    (fuel t : Nat) (st : σ × ComputationGraph) (ht : t ≤ insent.length)
    (hfuel : insent.length - t < fuel) :
    forwardEncoderLoop B insent fuel t st = some ((insent.drop t).foldl (encoderStep B) st) := by
  induction fuel generalizing t st with
  | zero => omega
  | succ fuel ih =>
    obtain ⟨fwd, cg⟩ := st
    by_cases hlt : t < insent.length
    · have hx : insent[t]? = some insent[t] := List.getElem?_eq_getElem hlt
      have hu : u32 (t + 1) = t + 1 := u32_of_lt (by omega)
      have hdrop : insent.drop t = insent[t] :: insent.drop (t + 1) :=
        List.drop_eq_getElem_cons hlt
      simp only [forwardEncoderLoop, hlt, if_true, hx, hu, hdrop, List.foldl_cons]
      rw [ih (t + 1) _ (by omega) (by omega)]
      rfl
    · have hte : t = insent.length := by omega
      simp [forwardEncoderLoop, hlt, hte]

theorem backwardEncoderLoop_eq (B : Builder σ) (insent : List Int)
    (fuel k : Nat) (st : σ × ComputationGraph) (hk : k ≤ insent.length)
    (hfuel : k < fuel) :
    backwardEncoderLoop B insent fuel ((k : Int) - 1) st
      = some ((insent.take k).reverse.foldl (encoderStep B) st) := by
  induction fuel generalizing k st with
  | zero => omega
  | succ fuel ih =>
    obtain ⟨rev, cg⟩ := st
    cases k with
    | zero => simp [backwardEncoderLoop]
    | succ k =>
      have hlt : k < insent.length := by omega
      have hx : insent[k]? = some insent[k] := List.getElem?_eq_getElem hlt
      have hge : ((k + 1 : Nat) : Int) - 1 ≥ 0 := by omega
      have hnat : (((k + 1 : Nat) : Int) - 1).toNat = k := by omega
      have hnext : ((k + 1 : Nat) : Int) - 1 - 1 = (k : Int) - 1 := by omega
      have htake : insent.take (k + 1) = insent.take k ++ [insent[k]] := by
        rw [List.take_succ, hx]; rfl
      simp only [backwardEncoderLoop, hge, if_true, hnat, hx, hnext, htake,
        List.reverse_append, List.reverse_singleton, List.singleton_append, List.foldl_cons]
      rw [ih k _ (by omega) (by omega)]
      rfl

theorem forwardEncoder_eq (B : Builder σ) (insent : List Int) (hlen : insent.length < 2 ^ 31)
    (fwd : σ) (cg : ComputationGraph) :
    forwardEncoder B insent fwd cg = some (insent.foldl (encoderStep B)
      (B.start_new_sequence (B.new_graph fwd cg).1 [], cg ++ (B.new_graph fwd cg).2)) := by
  unfold forwardEncoder
  have h := forwardEncoderLoop_eq B insent (by omega) (insent.length + 1) 0
    (B.start_new_sequence (B.new_graph fwd cg).1 [], cg ++ (B.new_graph fwd cg).2)
    (Nat.zero_le _) (by omega)
  simpa using h

theorem backwardEncoder_eq (B : Builder σ) (insent : List Int) (hlen : insent.length < 2 ^ 31)
    (rev : σ) (cg : ComputationGraph) :
    backwardEncoder B insent rev cg = some (insent.reverse.foldl (encoderStep B)
      (B.start_new_sequence (B.new_graph rev cg).1 [], cg ++ (B.new_graph rev cg).2)) := by
  unfold backwardEncoder
  have ht0 := toInt32_sizeMinusOne hlen
  have h := backwardEncoderLoop_eq B insent (((insent.length : Int) - 1).toNat + 2)
    insent.length
    (B.start_new_sequence (B.new_graph rev cg).1 [], cg ++ (B.new_graph rev cg).2)
    (le_refl _) (by omega)
  simp only [ht0]
  simpa using h

theorem foldl_encoderStep_recording (B : Builder σ) (tokens : List Int) (s : σ)
    (log : List (Option Node)) (cg : ComputationGraph) :
    (tokens.foldl (encoderStep (recording B)) ((s, log), cg)).1.2
      = log ++ tokens.map (fun x => some (Node.lookup LookupTable.p_ec x)) := by
  induction tokens generalizing s log cg with
  | nil => simp
  | cons x xs ih =>
    simp only [List.foldl_cons, List.map_cons]
    have hstep : encoderStep (recording B) ((s, log), cg) x
        = (((B.add_input s cg.length (cg ++ [Node.lookup LookupTable.p_ec x])).1,
            log ++ [some (Node.lookup LookupTable.p_ec x)]),
           (cg ++ [Node.lookup LookupTable.p_ec x])
             ++ (B.add_input s cg.length (cg ++ [Node.lookup LookupTable.p_ec x])).2.1) := by
      simp [encoderStep, recording, ComputationGraph.add]
    rw [hstep, ih]
    simp

/-- Inversion of `BuildGraph`: a returned result is the composition of its
four phases. -/
theorem BuildGraph_eq_some (B : Builder σ) (g : Globals) (lm lm1 : EncoderDecoder σ)
    (insent osent : List Int) (cg cg1 : ComputationGraph) (r : VariableIndex)
    (h : BuildGraph B g lm insent osent cg = some (lm1, cg1, r)) :
    ∃ cgF cgR to_ cgB oein errs,
      forwardEncoder B insent lm.fwd_enc_builder cg = some (lm1.fwd_enc_builder, cgF) ∧
      backwardEncoder B insent lm.rev_enc_builder cgF = some (lm1.rev_enc_builder, cgR) ∧
      collectFinalStates g (B.final_h lm1.fwd_enc_builder) (B.final_h lm1.rev_enc_builder)
        = some to_ ∧
      stateBridge g to_ cgR = some (cgB, oein) ∧
      decoder B osent (B.start_new_sequence (B.new_graph lm.dec_builder cgB).1 oein)
        (cgB ++ (B.new_graph lm.dec_builder cgB).2) = some (lm1.dec_builder, cg1, errs, r) := by
  unfold BuildGraph at h
  split at h
  · exact absurd h (by simp)
  · rename_i fwd cgF hF
    split at h
    · exact absurd h (by simp)
    · rename_i rev cgR hR
      split at h
      · exact absurd h (by simp)
      · rename_i to_ hT
        split at h
        · exact absurd h (by simp)
        · rename_i cgB oein hB
          simp only at h
          split at h
          · exact absurd h (by simp)
          · rename_i dec cgD errs r1 hD
            simp only [Option.some.injEq, Prod.mk.injEq] at h
            obtain ⟨h1, h2, h3⟩ := h
            subst h1 h2 h3
            exact ⟨cgF, cgR, to_, cgB, oein, errs, hF, hR, hT, hB, hD⟩

/-- C7: for every input sentence shorter than `2^31` tokens (the empty one
included) the forward encoder consumes the tokens of `insent` from left to
right and the backward encoder consumes them from right to left, each token
once per direction, every token embedded with the shared table `p_ec`; the
inputs a recording builder receives are the `p_ec` lookups of `insent`,
respectively of its reverse, also inside `BuildGraph`. -/
theorem C7_bidirectional_consumption (B : Builder σ) (insent : List Int)
    (hlen : insent.length < 2 ^ 31) :
    (∀ (fwd : σ) (cg : ComputationGraph),
      forwardEncoder B insent fwd cg = some (insent.foldl (encoderStep B)
        (B.start_new_sequence (B.new_graph fwd cg).1 [], cg ++ (B.new_graph fwd cg).2))) ∧
    (∀ (rev : σ) (cg : ComputationGraph),
      backwardEncoder B insent rev cg = some (insent.reverse.foldl (encoderStep B)
        (B.start_new_sequence (B.new_graph rev cg).1 [], cg ++ (B.new_graph rev cg).2))) ∧
    (∀ (fwd : σ) (log : List (Option Node)) (cg : ComputationGraph),
      (forwardEncoder (recording B) insent (fwd, log) cg).map (fun r => r.1.2)
        = some (log ++ insent.map (fun x => some (Node.lookup LookupTable.p_ec x)))) ∧
    (∀ (rev : σ) (log : List (Option Node)) (cg : ComputationGraph),
      (backwardEncoder (recording B) insent (rev, log) cg).map (fun r => r.1.2)
        = some (log ++ insent.reverse.map (fun x => some (Node.lookup LookupTable.p_ec x)))) ∧
    (∀ (g : Globals) (lm lm1 : EncoderDecoder (σ × List (Option Node))) (osent : List Int)
        (cg cg1 : ComputationGraph) (r : VariableIndex),
      BuildGraph (recording B) g lm insent osent cg = some (lm1, cg1, r) →
      lm1.fwd_enc_builder.2 = lm.fwd_enc_builder.2
        ++ insent.map (fun x => some (Node.lookup LookupTable.p_ec x)) ∧
      lm1.rev_enc_builder.2 = lm.rev_enc_builder.2
        ++ insent.reverse.map (fun x => some (Node.lookup LookupTable.p_ec x))) := by
  have hF : ∀ (fwd : σ) (log : List (Option Node)) (cg : ComputationGraph),
      (forwardEncoder (recording B) insent (fwd, log) cg).map (fun r => r.1.2)
        = some (log ++ insent.map (fun x => some (Node.lookup LookupTable.p_ec x))) := by
    intro fwd log cg
    rw [forwardEncoder_eq (recording B) insent hlen]
    simp only [Option.map_some']
    exact congrArg some (foldl_encoderStep_recording B insent _ log _)
  have hR : ∀ (rev : σ) (log : List (Option Node)) (cg : ComputationGraph),
      (backwardEncoder (recording B) insent (rev, log) cg).map (fun r => r.1.2)
        = some (log ++ insent.reverse.map (fun x => some (Node.lookup LookupTable.p_ec x))) := by
    intro rev log cg
    rw [backwardEncoder_eq (recording B) insent hlen]
    simp only [Option.map_some']
    exact congrArg some (foldl_encoderStep_recording B insent.reverse _ log _)
  refine ⟨forwardEncoder_eq B insent hlen, backwardEncoder_eq B insent hlen, hF, hR, ?_⟩
  intro g lm lm1 osent cg cg1 r h
  obtain ⟨cgF, cgR, to_, cgB, oein, errs, h1, h2, _, _, _⟩ :=
    BuildGraph_eq_some (recording B) g lm lm1 insent osent cg cg1 r h
  have e1 := hF lm.fwd_enc_builder.1 lm.fwd_enc_builder.2 cg
  have e2 := hR lm.rev_enc_builder.1 lm.rev_enc_builder.2 cgF
  simp only [Prod.mk.eta] at e1 e2
  rw [h1] at e1
  rw [h2] at e2
  simp only [Option.map_some', Option.some.injEq] at e1 e2
  exact ⟨e1, e2⟩

/-- Witness of `C7_bidirectional_consumption`: the sentence `[0, 2, 1]` with the
recording `layerStack` builder, in the encoders and in a whole `BuildGraph`. -/
theorem C7_bidirectional_consumption_witness :
    [(0 : Int), 2, 1].length < 2 ^ 31 ∧
    (forwardEncoder (recording layerStack) [0, 2, 1] (⟨2, []⟩, []) []).map (fun r => r.1.2)
      = some ([] ++ [(0 : Int), 2, 1].map (fun x => some (Node.lookup LookupTable.p_ec x))) ∧
    (backwardEncoder (recording layerStack) [0, 2, 1] (⟨2, []⟩, []) []).map (fun r => r.1.2)
      = some ([] ++ [(0 : Int), 2, 1].reverse.map
          (fun x => some (Node.lookup LookupTable.p_ec x))) ∧
    (BuildGraph (recording layerStack) {} ⟨(⟨2, []⟩, []), (⟨2, []⟩, []), (⟨2, []⟩, [])⟩
        [0, 2, 1] [0, 2, 1] []).map (fun r => (r.1.fwd_enc_builder.2, r.1.rev_enc_builder.2))
      = some ([some (Node.lookup LookupTable.p_ec 0), some (Node.lookup LookupTable.p_ec 2),
               some (Node.lookup LookupTable.p_ec 1)],
              [some (Node.lookup LookupTable.p_ec 1), some (Node.lookup LookupTable.p_ec 2),
               some (Node.lookup LookupTable.p_ec 0)]) :=
  ⟨by decide,
    (C7_bidirectional_consumption layerStack [0, 2, 1] (by decide)).2.2.1 ⟨2, []⟩ [] [],
    (C7_bidirectional_consumption layerStack [0, 2, 1] (by decide)).2.2.2.1 ⟨2, []⟩ [] [],
    by decide⟩

end Encoder

/-! ## Decoder -/

section Decoder

variable {σ : Type}

theorem zip_tail_length (osent : List Int) : (osent.zip osent.tail).length = osent.length - 1 := by
  simp [Nat.min_def]

theorem zip_tail_getElem (osent : List Int) (t : Nat) (h : t + 1 < osent.length) :
    (osent.zip osent.tail)[t]? = some (osent[t], osent[t + 1]) := by
  have ht : t < osent.length := by omega
  rw [List.getElem?_eq_getElem (by rw [zip_tail_length]; omega)]
  simp [List.getElem_zip, List.getElem_tail]

theorem decoderLoop_eq (B : Builder σ) (osent : List Int) (i_R i_bias : VariableIndex)
    (hlen1 : 1 ≤ osent.length) (hlen : osent.length ≤ 2 ^ 32)
    (fuel t : Nat) (st : DecoderState σ) (ht : t ≤ osent.length - 1)
    (hfuel : osent.length - 1 - t < fuel) :
    decoderLoop B osent i_R i_bias (osent.length - 1) fuel t st
      = some (((osent.zip osent.tail).drop t).foldl (teacherForcedStep B i_R i_bias) st) := by
  induction fuel generalizing t st with
  | zero => omega
  | succ fuel ih =>
    obtain ⟨dec, cg, errs⟩ := st
    by_cases hlt : t < osent.length - 1
    · have hx : osent[t]? = some osent[t] := List.getElem?_eq_getElem (by omega)
      have hu : u32 (t + 1) = t + 1 := u32_of_lt (by omega)
      have hy : osent[t + 1]? = some osent[t + 1] := List.getElem?_eq_getElem (by omega)
      have hdrop : (osent.zip osent.tail).drop t
          = (osent[t], osent[t + 1]) :: (osent.zip osent.tail).drop (t + 1) := by
        have hz := zip_tail_getElem osent t (by omega)
        have hlt2 : t < (osent.zip osent.tail).length := by rw [zip_tail_length]; omega
        rw [List.drop_eq_getElem_cons hlt2]
        rw [List.getElem?_eq_getElem hlt2] at hz
        simp only [Option.some.injEq] at hz
        rw [hz]
      simp only [decoderLoop, hlt, if_true, hx, hu, hy, hdrop, List.foldl_cons]
      rw [ih (t + 1) _ (by omega) (by omega)]
      rfl
    · have hte : t = osent.length - 1 := by omega
      have hnil : (osent.zip osent.tail).drop t = [] := by
        apply List.drop_eq_nil_of_le
        rw [zip_tail_length]; omega
      simp [decoderLoop, hlt, hnil]

theorem decoder_eq (B : Builder σ) (osent : List Int)
    (hlen1 : 1 ≤ osent.length) (hlen : osent.length ≤ 2 ^ 32) (dec : σ) (cg : ComputationGraph) :
    decoder B osent dec cg = some (teacherForcedDecoder B osent dec cg) := by
  have hos : u32 (sizeMinusOne osent.length) = osent.length - 1 := by
    rw [sizeMinusOne_of_pos hlen1]
    exact u32_of_lt (by omega)
  have h := decoderLoop_eq B osent cg.length (cg.length + 1) hlen1 hlen (osent.length - 1 + 1) 0
    (dec, cg ++ [Node.parameters Param.p_R, Node.parameters Param.p_bias], [])
    (Nat.zero_le _) (by omega)
  simp only [List.drop_zero] at h
  simp only [decoder, teacherForcedDecoder, ComputationGraph.add, hos, List.append_assoc,
    List.singleton_append, List.length_append, List.length_singleton, h]

/-- What the decoder steps leave behind: one term per pair, each term the index
of a `PickElement` node for the second token of its pair; earlier nodes stay. -/
theorem foldl_teacherForcedStep (B : Builder σ) (i_R i_bias : VariableIndex)
    (pairs : List (Int × Int)) (st : DecoderState σ)
    (hst : ∀ e ∈ st.2.2, e < st.2.1.length) :
    (∀ e ∈ (pairs.foldl (teacherForcedStep B i_R i_bias) st).2.2,
      e < (pairs.foldl (teacherForcedStep B i_R i_bias) st).2.1.length) ∧
    (∀ i, i < st.2.1.length →
      (pairs.foldl (teacherForcedStep B i_R i_bias) st).2.1[i]? = st.2.1[i]?) ∧
    (pairs.foldl (teacherForcedStep B i_R i_bias) st).2.2.map
        (fun e => ((pairs.foldl (teacherForcedStep B i_R i_bias) st).2.1[e]?).bind Node.picked)
      = st.2.2.map (fun e => (st.2.1[e]?).bind Node.picked) ++ pairs.map (fun p => some p.2) := by
  induction pairs generalizing st with
  | nil => exact ⟨hst, fun _ _ => rfl, by simp⟩
  | cons p ps ih =>
    obtain ⟨dec, cg, errs⟩ := st
    simp only at hst
    simp only [List.foldl_cons]
    -- the state after one step
    obtain ⟨dec1, cg1, errs1, hstep, hcg1, herrs1⟩ :
        ∃ dec1 cg1 errs1, teacherForcedStep B i_R i_bias (dec, cg, errs) p = (dec1, cg1, errs1) ∧
          (∃ mid k, cg1 = cg ++ mid ++ [Node.pickElement [k] p.2]) ∧
          errs1 = errs ++ [cg1.length - 1] := by
      refine ⟨_, _, _, rfl, ?_, ?_⟩
      · refine ⟨[Node.lookup LookupTable.p_c p.1]
          ++ (B.add_input dec cg.length (cg ++ [Node.lookup LookupTable.p_c p.1])).2.1
          ++ [Node.affineTransform [i_bias, i_R,
                (B.add_input dec cg.length (cg ++ [Node.lookup LookupTable.p_c p.1])).2.2],
              Node.logSoftmax [(cg ++ [Node.lookup LookupTable.p_c p.1]
                ++ (B.add_input dec cg.length (cg ++ [Node.lookup LookupTable.p_c p.1])).2.1).length]],
          (cg ++ [Node.lookup LookupTable.p_c p.1]
            ++ (B.add_input dec cg.length (cg ++ [Node.lookup LookupTable.p_c p.1])).2.1).length
            + 1, ?_⟩
        simp [teacherForcedStep, ComputationGraph.add]
        exact (Nat.add_assoc _ _ _).symm
      · simp [ComputationGraph.add]
    rw [hstep]
    obtain ⟨mid, k, hmid⟩ := hcg1
    have hlen1 : cg1.length = cg.length + mid.length + 1 := by
      rw [hmid]; simp only [List.length_append, List.length_singleton]
    have hold : ∀ i, i < cg.length → cg1[i]? = cg[i]? := by
      intro i hi
      rw [hmid, List.append_assoc, List.getElem?_append_left hi]
    have hst1 : ∀ e ∈ errs1, e < cg1.length := by
      intro e he
      rw [herrs1] at he
      rcases List.mem_append.mp he with he | he
      · exact Nat.lt_of_lt_of_le (hst e he) (by omega)
      · simp only [List.mem_singleton] at he
        rw [he]
        exact Nat.sub_lt (by omega) Nat.one_pos
    obtain ⟨ih1, ih2, ih3⟩ := ih (dec1, cg1, errs1) hst1
    refine ⟨ih1, ?_, ?_⟩
    · intro i hi
      simp only at ih2 hi ⊢
      rw [ih2 i (Nat.lt_of_lt_of_le hi (by omega)), hold i hi]
    · simp only at ih3 ⊢
      rw [ih3, herrs1]
      have hnew : cg1[cg1.length - 1]? = some (Node.pickElement [k] p.2) := by
        have hidx : cg1.length - 1 = (cg ++ mid).length := by
          rw [hlen1, List.length_append]; rfl
        rw [hidx, hmid]
        exact List.getElem?_concat_length _ _
      have hmapold : errs.map (fun e => (cg1[e]?).bind Node.picked)
          = errs.map (fun e => (cg[e]?).bind Node.picked) := by
        apply List.map_congr_left
        intro e he
        rw [hold e (hst e he)]
      simp only [List.map_append, List.map_cons, List.map_nil, hmapold, hnew, Option.some_bind,
        List.append_assoc, List.singleton_append]
      rfl

theorem foldl_teacherForcedStep_recording (B : Builder σ) (i_R i_bias : VariableIndex)
    (pairs : List (Int × Int)) (s : σ) (log : List (Option Node)) (cg : ComputationGraph)
    (errs : List VariableIndex) :
    (pairs.foldl (teacherForcedStep (recording B) i_R i_bias) ((s, log), cg, errs)).1.2
      = log ++ pairs.map (fun p => some (Node.lookup LookupTable.p_c p.1)) := by
  induction pairs generalizing s log cg errs with
  | nil => simp
  | cons p ps ih =>
    simp only [List.foldl_cons, List.map_cons]
    have hlog : (teacherForcedStep (recording B) i_R i_bias ((s, log), cg, errs) p).1.2
        = log ++ [some (Node.lookup LookupTable.p_c p.1)] := by
      simp [teacherForcedStep, recording, ComputationGraph.add]
    rcases hstep : teacherForcedStep (recording B) i_R i_bias ((s, log), cg, errs) p with
      ⟨⟨s1, log1⟩, cg1, errs1⟩
    rw [hstep] at hlog
    simp only at hlog
    rw [ih, hlog]
    simp

theorem zip_tail_map_snd (osent : List Int) :
    (osent.zip osent.tail).map (fun p => p.2) = osent.tail := by
  have h := List.map_snd_zip osent osent.tail (by simp)
  simpa using h

theorem zip_tail_map_fst (osent : List Int) :
    (osent.zip osent.tail).map (fun p => p.1) = osent.take (osent.length - 1) := by
  cases osent with
  | nil => rfl
  | cons a l =>
    induction l generalizing a with
    | nil => rfl
    | cons b l ih =>
      have := ih b
      simp only [List.tail_cons, List.length_cons, Nat.add_sub_cancel] at this ⊢
      simp [this]

theorem getElem?_append_pair_fst {β : Type} (l : List β) (a b : β) :
    (l ++ [a, b])[l.length]? = some a := by
  rw [List.getElem?_append_right (le_refl _)]
  simp

theorem getElem?_append_pair_snd {β : Type} (l : List β) (a b : β) :
    (l ++ [a, b])[l.length + 1]? = some b := by
  rw [List.getElem?_append_right (Nat.le_succ _)]
  simp

/-- Facts about a result of `decoder`: the summed terms, the two final nodes. -/
theorem decoder_result (B : Builder σ) (osent : List Int)
    (hlen1 : 1 ≤ osent.length) (hlen : osent.length ≤ 2 ^ 32) (dec dec1 : σ)
    (cg cg1 : ComputationGraph) (errs : List VariableIndex) (r : VariableIndex)
    (h : decoder B osent dec cg = some (dec1, cg1, errs, r)) :
    errs.length = osent.length - 1 ∧
    errs.map (fun e => (cg1[e]?).bind Node.picked) = osent.tail.map some ∧
    cg1[r]? = some (Node.negate [r - 1]) ∧
    cg1[r - 1]? = some (Node.sum errs) ∧
    r + 1 = cg1.length := by
  rw [decoder_eq B osent hlen1 hlen] at h
  simp only [teacherForcedDecoder, Option.some.injEq, Prod.mk.injEq] at h
  obtain ⟨_, hcg, herrs, hr⟩ := h
  obtain ⟨f1, f2, f3⟩ := foldl_teacherForcedStep B cg.length (cg.length + 1)
    (osent.zip osent.tail) (dec, cg ++ [Node.parameters Param.p_R, Node.parameters Param.p_bias], [])
    (by simp)
  generalize (osent.zip osent.tail).foldl (teacherForcedStep B cg.length (cg.length + 1))
    (dec, cg ++ [Node.parameters Param.p_R, Node.parameters Param.p_bias], []) = fin at *
  obtain ⟨fdec, fcg, ferrs⟩ := fin
  simp only at hcg herrs hr f1 f2 f3
  subst herrs
  have hpicks : ferrs.map (fun e => (cg1[e]?).bind Node.picked) = osent.tail.map some := by
    have hsame : ferrs.map (fun e => (cg1[e]?).bind Node.picked)
        = ferrs.map (fun e => (fcg[e]?).bind Node.picked) := by
      apply List.map_congr_left
      intro e he
      rw [← hcg, List.getElem?_append_left (f1 e he)]
    rw [hsame, f3]
    simp only [List.map_nil, List.nil_append]
    conv_rhs => rw [← zip_tail_map_snd osent, List.map_map]
    rfl
  refine ⟨?_, hpicks, ?_, ?_, ?_⟩
  · have := congrArg List.length hpicks
    simpa using this
  · rw [← hr, ← hcg]
    exact getElem?_append_pair_snd _ _ _
  · rw [← hr, ← hcg]
    exact getElem?_append_pair_fst _ _ _
  · rw [← hr, ← hcg]
    simp

theorem decoder_recording (B : Builder σ) (osent : List Int)
    (hlen1 : 1 ≤ osent.length) (hlen : osent.length ≤ 2 ^ 32) (d : σ × List (Option Node))
    (cg : ComputationGraph) :
    (decoder (recording B) osent d cg).map (fun x => x.1.2)
      = some (d.2 ++ (osent.take (osent.length - 1)).map
          (fun x => some (Node.lookup LookupTable.p_c x))) := by
  obtain ⟨dec, log⟩ := d
  rw [decoder_eq (recording B) osent hlen1 hlen]
  simp only [Option.map_some', teacherForcedDecoder, Option.some.injEq]
  rw [foldl_teacherForcedStep_recording, ← zip_tail_map_fst osent, List.map_map]
  rfl

/-- C5: for a target sentence of length `n` with `1 ≤ n ≤ 2^32` the decoder
returns, after exactly `n - 1` teacher-forced steps; step `t` embeds the true
token `osent[t]` with the decoder table `p_c` and contributes the
`PickElement` of the log-softmax at `osent[t+1]`; the result is the `Negate`
of the `Sum` of exactly these `n - 1` terms; no read of `osent` is out of
bounds. The same holds inside `BuildGraph`. -/
theorem C5_teacher_forced_decoder (B : Builder σ) (osent : List Int)
    (hlen1 : 1 ≤ osent.length) (hlen : osent.length ≤ 2 ^ 32) :
    (∀ (dec : σ) (cg : ComputationGraph),
      decoder B osent dec cg = some (teacherForcedDecoder B osent dec cg)) ∧
    (osent.zip osent.tail).length = osent.length - 1 ∧
    (∀ t, t + 1 < osent.length → ∃ x y, osent[t]? = some x ∧ osent[t + 1]? = some y ∧
      (osent.zip osent.tail)[t]? = some (x, y)) ∧
    (∀ (dec dec1 : σ) (cg cg1 : ComputationGraph) (errs : List VariableIndex) (r : VariableIndex),
      decoder B osent dec cg = some (dec1, cg1, errs, r) →
      errs.length = osent.length - 1 ∧
      errs.map (fun e => (cg1[e]?).bind Node.picked) = osent.tail.map some ∧
      cg1[r]? = some (Node.negate [r - 1]) ∧ cg1[r - 1]? = some (Node.sum errs) ∧
      r + 1 = cg1.length) ∧
    (∀ (d : σ × List (Option Node)) (cg : ComputationGraph),
      (decoder (recording B) osent d cg).map (fun x => x.1.2)
        = some (d.2 ++ (osent.take (osent.length - 1)).map
            (fun x => some (Node.lookup LookupTable.p_c x)))) ∧
    (∀ (g : Globals) (lm lm1 : EncoderDecoder σ) (insent : List Int)
        (cg cg1 : ComputationGraph) (r : VariableIndex),
      BuildGraph B g lm insent osent cg = some (lm1, cg1, r) →
      ∃ errs : List VariableIndex, errs.length = osent.length - 1 ∧
        errs.map (fun e => (cg1[e]?).bind Node.picked) = osent.tail.map some ∧
        cg1[r]? = some (Node.negate [r - 1]) ∧ cg1[r - 1]? = some (Node.sum errs) ∧
        r + 1 = cg1.length) ∧
    (∀ (g : Globals) (lm lm1 : EncoderDecoder (σ × List (Option Node))) (insent : List Int)
        (cg cg1 : ComputationGraph) (r : VariableIndex),
      BuildGraph (recording B) g lm insent osent cg = some (lm1, cg1, r) →
      lm1.dec_builder.2 = lm.dec_builder.2 ++ (osent.take (osent.length - 1)).map
        (fun x => some (Node.lookup LookupTable.p_c x))) := by
  refine ⟨decoder_eq B osent hlen1 hlen, zip_tail_length osent, ?_,
    decoder_result B osent hlen1 hlen, decoder_recording B osent hlen1 hlen, ?_, ?_⟩
  · intro t ht
    exact ⟨osent[t], osent[t + 1], List.getElem?_eq_getElem (by omega),
      List.getElem?_eq_getElem ht, zip_tail_getElem osent t ht⟩
  · intro g lm lm1 insent cg cg1 r h
    obtain ⟨cgF, cgR, to_, cgB, oein, errs, _, _, _, _, hD⟩ :=
      BuildGraph_eq_some B g lm lm1 insent osent cg cg1 r h
    exact ⟨errs, decoder_result B osent hlen1 hlen _ _ _ _ _ _ hD⟩
  · intro g lm lm1 insent cg cg1 r h
    obtain ⟨cgF, cgR, to_, cgB, oein, errs, _, _, _, _, hD⟩ :=
      BuildGraph_eq_some (recording B) g lm lm1 insent osent cg cg1 r h
    have hrec := decoder_recording B osent hlen1 hlen
      ((recording B).start_new_sequence ((recording B).new_graph lm.dec_builder cgB).1 oein)
      (cgB ++ ((recording B).new_graph lm.dec_builder cgB).2)
    rw [hD] at hrec
    simpa [recording] using hrec

/-- Witness of `C5_teacher_forced_decoder`: the target `[0, 2, 1]`, in the
decoder and in a whole `BuildGraph` with the recording `layerStack` builder. -/
theorem C5_teacher_forced_decoder_witness :
    1 ≤ [(0 : Int), 2, 1].length ∧ [(0 : Int), 2, 1].length ≤ 2 ^ 32 ∧
    decoder layerStack [0, 2, 1] ⟨2, []⟩ []
      = some (teacherForcedDecoder layerStack [0, 2, 1] ⟨2, []⟩ []) ∧
    ([(0 : Int), 2, 1].zip [(0 : Int), 2, 1].tail).length = [(0 : Int), 2, 1].length - 1 ∧
    (decoder layerStack [0, 2, 1] ⟨2, []⟩ []).map (fun r => r.2.2.1.length) = some 2 ∧
    (BuildGraph (recording layerStack) {} ⟨(⟨2, []⟩, []), (⟨2, []⟩, []), (⟨2, []⟩, [])⟩
        [0, 2, 1] [0, 2, 1] []).map (fun r => r.1.dec_builder.2)
      = some [some (Node.lookup LookupTable.p_c 0), some (Node.lookup LookupTable.p_c 2)] :=
  ⟨by decide, by decide,
    (C5_teacher_forced_decoder layerStack [0, 2, 1] (by decide) (by decide)).1 ⟨2, []⟩ [],
    (C5_teacher_forced_decoder layerStack [0, 2, 1] (by decide) (by decide)).2.1,
    by decide, by decide⟩

/-- C3 (as stated, refuted): on the target `<s> </s>` (ids `[0, 1]`) the decoder
loop runs once; `errs` has one entry, and the loss node of `BuildGraph` is the
negation of a sum with one term, the `PickElement` of token `1`. -/
theorem C3_counterexample :
    (decoder layerStack [0, 1] ⟨2, []⟩ []).map (fun x => x.2.2.1) = some [7] ∧
    (BuildGraph layerStack {} ⟨⟨2, []⟩, ⟨2, []⟩, ⟨2, []⟩⟩ [0, 1] [0, 1] []).map
      (fun x => (x.2.1[x.2.2]?, x.2.1[x.2.2 - 1]?, x.2.1[x.2.2 - 2]?))
      = some (some (Node.negate [32]), some (Node.sum [31]), some (Node.pickElement [30] 1)) := by
  decide

/-- C3 (amended): on a target sentence of length 2 the teacher-forcing loop
runs exactly once, feeding `osent[0]` and picking the entry of `osent[1]`: the
list of terms has one entry and the loss is the negation of the sum of that
one term. The loop runs zero times, with an empty sum, for length 1. -/
theorem C3_length_two_runs_once (B : Builder σ) (a b : Int) (dec : σ) (cg : ComputationGraph) :
    decoder B [a, b] dec cg = some (teacherForcedDecoder B [a, b] dec cg) ∧
    teacherForcedDecoder B [a, b] dec cg =
      ((teacherForcedStep B cg.length (cg.length + 1)
          (dec, cg ++ [Node.parameters Param.p_R, Node.parameters Param.p_bias], []) (a, b)).1,
       (teacherForcedStep B cg.length (cg.length + 1)
          (dec, cg ++ [Node.parameters Param.p_R, Node.parameters Param.p_bias], []) (a, b)).2.1
        ++ [Node.sum (teacherForcedStep B cg.length (cg.length + 1)
              (dec, cg ++ [Node.parameters Param.p_R, Node.parameters Param.p_bias], []) (a, b)).2.2,
            Node.negate [(teacherForcedStep B cg.length (cg.length + 1)
              (dec, cg ++ [Node.parameters Param.p_R, Node.parameters Param.p_bias], [])
              (a, b)).2.1.length]],
       (teacherForcedStep B cg.length (cg.length + 1)
          (dec, cg ++ [Node.parameters Param.p_R, Node.parameters Param.p_bias], []) (a, b)).2.2,
       (teacherForcedStep B cg.length (cg.length + 1)
          (dec, cg ++ [Node.parameters Param.p_R, Node.parameters Param.p_bias], [])
          (a, b)).2.1.length + 1) ∧
    (∀ (dec1 : σ) (cg1 : ComputationGraph) (errs : List VariableIndex) (r : VariableIndex),
      decoder B [a, b] dec cg = some (dec1, cg1, errs, r) →
      errs.length = 1 ∧ errs.map (fun e => (cg1[e]?).bind Node.picked) = [some b] ∧
      cg1[r]? = some (Node.negate [r - 1]) ∧ cg1[r - 1]? = some (Node.sum errs)) ∧
    decoder B [a] dec cg = some (dec,
      cg ++ [Node.parameters Param.p_R, Node.parameters Param.p_bias, Node.sum [],
             Node.negate [cg.length + 2]], [], cg.length + 3) := by
  have hlen1 : 1 ≤ [a, b].length := by simp
  have hlen : [a, b].length ≤ 2 ^ 32 := by simp
  refine ⟨decoder_eq B [a, b] hlen1 hlen dec cg, rfl, ?_, ?_⟩
  · intro dec1 cg1 errs r h
    obtain ⟨h1, h2, h3, h4, _⟩ := decoder_result B [a, b] hlen1 hlen dec dec1 cg cg1 errs r h
    exact ⟨h1, h2, h3, h4⟩
  · rw [decoder_eq B [a] (by simp) (by simp)]
    simp [teacherForcedDecoder]

end Decoder

/-- Witness of `C3_length_two_runs_once`: the target `<s> </s>` (ids `[0, 1]`)
with the `layerStack` builder gives a list of exactly one term. -/
theorem C3_length_two_runs_once_witness :
    ∃ dec1 cg1 errs r, decoder layerStack [0, 1] ⟨2, []⟩ [] = some (dec1, cg1, errs, r) ∧
      errs.length = 1 ∧ errs.map (fun e => (cg1[e]?).bind Node.picked) = [some 1] :=
  ⟨_, _, _, _, (C3_length_two_runs_once layerStack 0 1 ⟨2, []⟩ []).1,
    ((C3_length_two_runs_once layerStack 0 1 ⟨2, []⟩ []).2.2.1 _ _ _ _
      (C3_length_two_runs_once layerStack 0 1 ⟨2, []⟩ []).1).1,
    ((C3_length_two_runs_once layerStack 0 1 ⟨2, []⟩ []).2.2.1 _ _ _ _
      (C3_length_two_runs_once layerStack 0 1 ⟨2, []⟩ []).1).2.1⟩

/-! ## State bridge -/

section Bridge

theorem writeAt_eq_some (v : List VariableIndex) (i : Nat) (x : VariableIndex)
    (h : i < v.length) : writeAt v i x = some (v.set i x) := by
  simp [writeAt, h]

theorem bridgeLoop_spec (g : Globals) (i_nc : VariableIndex)
    (h2L : g.LAYERS * 2 < 2 ^ 32) (hLH : g.LAYERS * g.HIDDEN_DIM < 2 ^ 32)
    (fuel i : Nat) (cg : ComputationGraph) (oein : List VariableIndex)
    (hi : i ≤ g.LAYERS) (hfuel : g.LAYERS - i < fuel) (hoein : oein.length = 2 * g.LAYERS) :
    ∃ cg1 oein1, bridgeLoop g i_nc fuel i (cg, oein) = some (cg1, oein1) ∧
      oein1.length = 2 * g.LAYERS ∧
      cg1.length = cg.length + 2 * (g.LAYERS - i) ∧
      (∀ k, k < cg.length → cg1[k]? = cg[k]?) ∧
      (∀ j, i ≤ j → j < g.LAYERS →
        oein1[j]? = some (cg.length + 2 * (j - i)) ∧
        oein1[j + g.LAYERS]? = some (cg.length + 2 * (j - i) + 1) ∧
        cg1[cg.length + 2 * (j - i)]? =
          some (Node.pickRange [i_nc] (j * g.HIDDEN_DIM) ((j + 1) * g.HIDDEN_DIM)) ∧
        cg1[cg.length + 2 * (j - i) + 1]? = some (Node.tanh [cg.length + 2 * (j - i)])) ∧
      (∀ j, (j < i ∨ (g.LAYERS ≤ j ∧ j < g.LAYERS + i)) → oein1[j]? = oein[j]?) := by
  induction fuel generalizing i cg oein with
  | zero => omega
  | succ fuel ih =>
    by_cases hlt : i < g.LAYERS
    · have hui : u32 i = i := u32_of_lt (by omega)
      have hstart : u32 (i * g.HIDDEN_DIM) = i * g.HIDDEN_DIM :=
        u32_of_lt (lt_of_le_of_lt (Nat.mul_le_mul_right _ hi) hLH)
      have hstop : u32 ((i + 1) * g.HIDDEN_DIM) = (i + 1) * g.HIDDEN_DIM :=
        u32_of_lt (lt_of_le_of_lt (Nat.mul_le_mul_right _ hlt) hLH)
      have hiL : u32 (i + g.LAYERS) = i + g.LAYERS := u32_of_lt (by omega)
      have hw1 : writeAt oein i cg.length = some (oein.set i cg.length) :=
        writeAt_eq_some _ _ _ (by omega)
      have hread : (oein.set i cg.length)[i]? = some cg.length := by
        exact List.getElem?_set_self (by omega)
      have hw2 : writeAt (oein.set i cg.length) (i + g.LAYERS) (cg.length + 1)
          = some ((oein.set i cg.length).set (i + g.LAYERS) (cg.length + 1)) :=
        writeAt_eq_some _ _ _ (by rw [List.length_set]; omega)
      obtain ⟨cg1, oein1, hrun, hlen, hcglen, hkeep, hnew, hold⟩ :=
        ih (i + 1)
          (cg ++ [Node.pickRange [i_nc] (i * g.HIDDEN_DIM) ((i + 1) * g.HIDDEN_DIM),
                  Node.tanh [cg.length]])
          ((oein.set i cg.length).set (i + g.LAYERS) (cg.length + 1))
          (by omega) (by omega) (by simp [hoein])
      have hlen2 : (cg ++ [Node.pickRange [i_nc] (i * g.HIDDEN_DIM) ((i + 1) * g.HIDDEN_DIM),
                  Node.tanh [cg.length]]).length = cg.length + 2 := by simp
      refine ⟨cg1, oein1, ?_, hlen, ?_, ?_, ?_, ?_⟩
      · simp only [bridgeLoop, hui, hlt, if_true, ComputationGraph.add, hstart, hstop, hw1,
          hread, List.length_append, List.length_singleton, hiL, hw2, List.append_assoc,
          List.singleton_append]
        exact hrun
      · rw [hcglen, hlen2]; omega
      · intro k hk
        rw [hkeep k (by rw [hlen2]; omega), List.getElem?_append_left hk]
      · intro j hij hjL
        by_cases hji : j = i
        · subst hji
          have e1 := hold j (Or.inl (Nat.lt_succ_self j))
          have e2 := hold (j + g.LAYERS) (Or.inr ⟨by omega, by omega⟩)
          have k1 := hkeep cg.length (by rw [hlen2]; omega)
          have k2 := hkeep (cg.length + 1) (by rw [hlen2]; omega)
          rw [getElem?_append_pair_fst] at k1
          rw [getElem?_append_pair_snd] at k2
          have s1 : ((oein.set j cg.length).set (j + g.LAYERS) (cg.length + 1))[j]?
              = some cg.length := by
            rw [List.getElem?_set_ne (by omega)]
            exact hread
          have s2 : ((oein.set j cg.length).set (j + g.LAYERS) (cg.length + 1))[j + g.LAYERS]?
              = some (cg.length + 1) := by
            exact List.getElem?_set_self (by rw [List.length_set]; omega)
          simp only [Nat.sub_self, Nat.mul_zero, Nat.add_zero]
          exact ⟨e1.trans s1, e2.trans s2, k1, k2⟩
        · obtain ⟨n1, n2, n3, n4⟩ := hnew j (by omega) hjL
          have hidx : cg.length + 2 + 2 * (j - (i + 1)) = cg.length + 2 * (j - i) := by omega
          rw [hlen2, hidx] at n1 n2 n3 n4
          exact ⟨n1, n2, n3, n4⟩
      · intro j hj
        rw [hold j (by omega)]
        rw [List.getElem?_set_ne (by omega), List.getElem?_set_ne (by omega)]
    · have hiL : i = g.LAYERS := by omega
      have hui : ¬ u32 i < g.LAYERS := by
        rw [u32_of_lt (by omega)]; exact hlt
      refine ⟨cg, oein, ?_, hoein, by omega, fun _ _ => rfl, ?_, fun _ _ => rfl⟩
      · simp [bridgeLoop, hui]
      · intro j h1 h2
        omega

theorem chunk_unique (L H k : Nat) (hk : k < L * H) :
    ∃ i, (i < L ∧ i * H ≤ k ∧ k < (i + 1) * H) ∧
      ∀ j, (j < L ∧ j * H ≤ k ∧ k < (j + 1) * H) → j = i := by
  have hH : 0 < H := by
    rcases Nat.eq_zero_or_pos H with h | h
    · subst h; simp at hk
    · exact h
  refine ⟨k / H, ⟨?_, ?_, ?_⟩, ?_⟩
  · exact Nat.div_lt_of_lt_mul (by rwa [Nat.mul_comm] at hk)
  · exact Nat.div_mul_le_self k H
  · exact (Nat.div_lt_iff_lt_mul hH).mp (Nat.lt_succ_self _)
  · rintro j ⟨_, h1, h2⟩
    have a1 : j ≤ k / H := (Nat.le_div_iff_mul_le hH).mpr h1
    have a2 : k / H < j + 1 := (Nat.div_lt_iff_lt_mul hH).mpr h2
    omega

theorem stateBridge_eq (g : Globals) (h2L : g.LAYERS * 2 < 2 ^ 32) (to_ : List VariableIndex)
    (cg : ComputationGraph) :
    stateBridge g to_ cg = bridgeLoop g (cg.length + 7) (g.LAYERS + 1) 0
      (cg ++ [Node.concatenate to_, Node.parameters Param.p_ie2h, Node.parameters Param.p_bie,
              Node.affineTransform [cg.length + 2, cg.length + 1, cg.length],
              Node.rectify [cg.length + 3], Node.parameters Param.p_h2oe,
              Node.parameters Param.p_boe,
              Node.affineTransform [cg.length + 6, cg.length + 5, cg.length + 4]],
       List.replicate (2 * g.LAYERS) 0) := by
  have h : u32 (g.LAYERS * 2) = 2 * g.LAYERS := by rw [u32_of_lt h2L]; omega
  simp [stateBridge, ComputationGraph.add, h]

/-- C6: for `L = LAYERS` and `H = HIDDEN_DIM` (with `2·L` and `L·H` representable
in `unsigned`) the state bridge returns a list `oein` of exactly `2·L`
entries; entry `i < L` is the `PickRange` of the bridge output (the affine
node with bias `p_boe`, of dimension `L·H`) over `[i·H, (i+1)·H)`, a range of
size `H`; entry `i + L` is the `Tanh` of entry `i`; the nodes are created in
layer order and every index below `L·H` lies in the range of exactly one
layer. A `BuildGraph` that returns has started its decoder from such a list. -/
theorem C6_state_bridge_split {σ : Type} (g : Globals) (h2L : g.LAYERS * 2 < 2 ^ 32)
    (hLH : g.LAYERS * g.HIDDEN_DIM < 2 ^ 32) (to_ : List VariableIndex) (cg : ComputationGraph) :
    (∃ cg1 oein, stateBridge g to_ cg = some (cg1, oein) ∧
      oein.length = 2 * g.LAYERS ∧
      cg1[cg.length + 7]? =
        some (Node.affineTransform [cg.length + 6, cg.length + 5, cg.length + 4]) ∧
      cg1[cg.length + 6]? = some (Node.parameters Param.p_boe) ∧
      EncoderDecoder.dim g Param.p_boe = [g.LAYERS * g.HIDDEN_DIM] ∧
      (∀ i, i < g.LAYERS →
        oein[i]? = some (cg.length + 8 + 2 * i) ∧
        cg1[cg.length + 8 + 2 * i]? =
          some (Node.pickRange [cg.length + 7] (i * g.HIDDEN_DIM) ((i + 1) * g.HIDDEN_DIM)) ∧
        (i + 1) * g.HIDDEN_DIM - i * g.HIDDEN_DIM = g.HIDDEN_DIM ∧
        oein[i + g.LAYERS]? = some (cg.length + 8 + 2 * i + 1) ∧
        cg1[cg.length + 8 + 2 * i + 1]? = some (Node.tanh [cg.length + 8 + 2 * i])) ∧
      (∀ k, k < g.LAYERS * g.HIDDEN_DIM →
        ∃ i, (i < g.LAYERS ∧ ∃ c a b, oein[i]? = some c ∧
                cg1[c]? = some (Node.pickRange [cg.length + 7] a b) ∧ a ≤ k ∧ k < b) ∧
          ∀ j, (j < g.LAYERS ∧ ∃ c a b, oein[j]? = some c ∧
                cg1[c]? = some (Node.pickRange [cg.length + 7] a b) ∧ a ≤ k ∧ k < b) → j = i)) ∧
    (∀ (B : Builder σ) (lm lm1 : EncoderDecoder σ) (insent osent : List Int)
        (cg0 cg2 : ComputationGraph) (r : VariableIndex),
      BuildGraph B g lm insent osent cg0 = some (lm1, cg2, r) →
      ∃ cgR final cgB oein errs, stateBridge g final cgR = some (cgB, oein) ∧
        oein.length = 2 * g.LAYERS ∧
        decoder B osent (B.start_new_sequence (B.new_graph lm.dec_builder cgB).1 oein)
          (cgB ++ (B.new_graph lm.dec_builder cgB).2) = some (lm1.dec_builder, cg2, errs, r)) := by
  refine ⟨?_, ?_⟩
  swap
  · intro B lm lm1 insent osent cg0 cg2 r h
    obtain ⟨cgF, cgR, final, cgB, oein, errs, _, _, _, hB, hD⟩ :=
      BuildGraph_eq_some B g lm lm1 insent osent cg0 cg2 r h
    obtain ⟨cgB1, oein1, hrun, hlen1, _, _, _, _⟩ :=
      bridgeLoop_spec g (cgR.length + 7) h2L hLH (g.LAYERS + 1) 0
        (cgR ++ [Node.concatenate final, Node.parameters Param.p_ie2h,
                Node.parameters Param.p_bie,
                Node.affineTransform [cgR.length + 2, cgR.length + 1, cgR.length],
                Node.rectify [cgR.length + 3], Node.parameters Param.p_h2oe,
                Node.parameters Param.p_boe,
                Node.affineTransform [cgR.length + 6, cgR.length + 5, cgR.length + 4]])
        (List.replicate (2 * g.LAYERS) 0) (Nat.zero_le _) (by omega) (by simp)
    have hB2 := hB
    rw [stateBridge_eq g h2L final cgR, hrun] at hB2
    simp only [Option.some.injEq, Prod.mk.injEq] at hB2
    obtain ⟨_, hoe⟩ := hB2
    subst hoe
    exact ⟨cgR, final, cgB, oein1, errs, hB, hlen1, hD⟩
  obtain ⟨cg1, oein, hrun, hlen, _, hkeep, hnew, _⟩ :=
    bridgeLoop_spec g (cg.length + 7) h2L hLH (g.LAYERS + 1) 0
      (cg ++ [Node.concatenate to_, Node.parameters Param.p_ie2h, Node.parameters Param.p_bie,
              Node.affineTransform [cg.length + 2, cg.length + 1, cg.length],
              Node.rectify [cg.length + 3], Node.parameters Param.p_h2oe,
              Node.parameters Param.p_boe,
              Node.affineTransform [cg.length + 6, cg.length + 5, cg.length + 4]])
      (List.replicate (2 * g.LAYERS) 0) (Nat.zero_le _) (by omega) (by simp)
  have hlen8 : (cg ++ [Node.concatenate to_, Node.parameters Param.p_ie2h,
      Node.parameters Param.p_bie,
      Node.affineTransform [cg.length + 2, cg.length + 1, cg.length],
      Node.rectify [cg.length + 3], Node.parameters Param.p_h2oe,
      Node.parameters Param.p_boe,
      Node.affineTransform [cg.length + 6, cg.length + 5, cg.length + 4]]).length
      = cg.length + 8 := by simp
  rw [hlen8] at hkeep hnew
  have hentry : ∀ i, i < g.LAYERS →
      oein[i]? = some (cg.length + 8 + 2 * i) ∧
      cg1[cg.length + 8 + 2 * i]? =
        some (Node.pickRange [cg.length + 7] (i * g.HIDDEN_DIM) ((i + 1) * g.HIDDEN_DIM)) ∧
      (i + 1) * g.HIDDEN_DIM - i * g.HIDDEN_DIM = g.HIDDEN_DIM ∧
      oein[i + g.LAYERS]? = some (cg.length + 8 + 2 * i + 1) ∧
      cg1[cg.length + 8 + 2 * i + 1]? = some (Node.tanh [cg.length + 8 + 2 * i]) := by
    intro i hi
    obtain ⟨n1, n2, n3, n4⟩ := hnew i (Nat.zero_le _) hi
    simp only [Nat.sub_zero] at n1 n2 n3 n4
    refine ⟨n1, n3, ?_, n2, n4⟩
    rw [Nat.succ_mul]
    exact Nat.add_sub_cancel_left _ _
  refine ⟨cg1, oein, (stateBridge_eq g h2L to_ cg).trans hrun, hlen, ?_, ?_, ?_, hentry, ?_⟩
  · rw [hkeep (cg.length + 7) (by omega), List.getElem?_append_right (by omega)]
    simp
  · rw [hkeep (cg.length + 6) (by omega), List.getElem?_append_right (by omega)]
    simp
  · simp only [EncoderDecoder.dim]
    rw [Nat.mul_comm, u32_of_lt hLH]
  · intro k hk
    obtain ⟨i, ⟨hiL, hlo, hhi⟩, huniq⟩ := chunk_unique g.LAYERS g.HIDDEN_DIM k hk
    refine ⟨i, ⟨hiL, _, _, _, (hentry i hiL).1, (hentry i hiL).2.1, hlo, hhi⟩, ?_⟩
    rintro j ⟨hjL, c, a, b, hc, hnode, ha, hb⟩
    apply huniq j
    obtain ⟨e1, e2, _⟩ := hentry j hjL
    rw [e1] at hc
    simp only [Option.some.injEq] at hc
    subst hc
    rw [e2] at hnode
    simp only [Option.some.injEq, Node.pickRange.injEq, true_and] at hnode
    obtain ⟨ha', hb'⟩ := hnode
    subst ha' hb'
    exact ⟨hjL, ha, hb⟩

/-- Witness of `C6_state_bridge_split`: the globals of the source, `LAYERS = 2`
and `HIDDEN_DIM = 24`. -/
theorem C6_state_bridge_split_witness :
    (2 * 2 < 2 ^ 32) ∧ (2 * 24 < 2 ^ 32) ∧
    ∃ cg1 oein, stateBridge {} [4, 5, 10, 11] [] = some (cg1, oein) ∧ oein.length = 2 * 2 :=
  ⟨by decide, by decide,
    (@C6_state_bridge_split LayerStack {} (by decide) (by decide) [4, 5, 10, 11] []).1.imp
      (fun _ h => h.imp (fun _ h2 => ⟨h2.1, h2.2.1⟩))⟩

end Bridge

/-! ## Training loop -/

section Training

variable {α ρ : Type}

theorem epochsOf_append (t e : List Event) :
    epochsOf (t ++ e) = e.foldl Epochs.step (epochsOf t) := by
  simp [epochsOf, List.foldl_append]

theorem initial_segment_append_cases {β : Type} (p t e : List β) (h : p <+: t ++ e) :
    p <+: t ∨ ∃ q, q <+: e ∧ p = t ++ q := by
  obtain ⟨r, hr⟩ := h
  rcases List.append_eq_append_iff.mp hr with ⟨a, h1, h2⟩ | ⟨c, h1, h2⟩
  · exact Or.inl ⟨a, h1.symm⟩
  · exact Or.inr ⟨c, ⟨r, h2.symm⟩, h1⟩

/-- The ordering property of the trace is kept when events are appended of
which the epoch advances are covered by the updates already made. -/
theorem ordering_append (N : Nat) (t e : List Event)
    (h : ∀ p, p <+: t → p.count Event.update_epoch * N ≤ p.count Event.update)
    (he : (t.count Event.update_epoch + e.count Event.update_epoch) * N
      ≤ t.count Event.update) :
    ∀ p, p <+: t ++ e → p.count Event.update_epoch * N ≤ p.count Event.update := by
  intro p hp
  rcases initial_segment_append_cases p t e hp with h1 | ⟨q, hq, rfl⟩
  · exact h p h1
  · have hle : q.count Event.update_epoch ≤ e.count Event.update_epoch :=
      hq.sublist.count_le _
    rw [List.count_append, List.count_append]
    calc (t.count Event.update_epoch + q.count Event.update_epoch) * N
        ≤ (t.count Event.update_epoch + e.count Event.update_epoch) * N :=
          Nat.mul_le_mul_right _ (by omega)
      _ ≤ t.count Event.update := he
      _ ≤ t.count Event.update + q.count Event.update := Nat.le_add_right _ _

theorem epochBoundary_mid (W : World α ρ) (N : Nat) (hN1 : 1 ≤ N) (s : TrainState α ρ)
    (hinv : TrainInvariant N s) : MidInvariant N (epochBoundary W N s) := by
  obtain ⟨hperm, hsi, hfirst, hlater, hpre⟩ := hinv
  unfold epochBoundary
  by_cases hb : s.si = N
  · simp only [hb, if_true]
    have hp : (W.random_shuffle s.rng s.order).2.Perm (List.range N) :=
      (W.shuffle_perm s.rng s.order).trans hperm
    cases hf : s.first with
    | true =>
      obtain ⟨_, hu, hs, he, hep⟩ := hfirst hf
      refine ⟨hp, (by show 0 < N; omega), rfl, ?_, ?_, ?_, ?_, ?_, ?_, ?_⟩
      · simp [List.count_append, hs]
      · simp [List.count_append, hs, hu]
      · simp [List.count_append, hs, he]
      · simp [epochsOf_append, hep, Epochs.step]
      · simp [epochsOf_append, hep, Epochs.step, List.count_append, hs]
      · simp [epochsOf_append, hep, Epochs.step]
      · simp only [if_true]
        exact ordering_append N s.trace [Event.shuffle] hpre (by simp [he])
    | false =>
      obtain ⟨_, hs1, hu, he, hcur, hlen, hsegs⟩ := hlater hf
      have hcur2 : (epochsOf s.trace).current = some s.order := by
        rw [hcur, hb, List.take_of_length_le]
        rw [hperm.length_eq, List.length_range]
      refine ⟨hp, (by show 0 < N; omega), rfl, ?_, ?_, ?_, ?_, ?_, ?_, ?_⟩
      · simp [List.count_append]
      · simp only [Bool.false_eq_true, if_false, List.append_assoc, List.count_append]
        simp [hu, hb]
        obtain ⟨c, hc⟩ : ∃ c, s.trace.count Event.shuffle = c + 1 := ⟨_, (Nat.sub_add_cancel hs1).symm⟩
        rw [hc]
        simp [Nat.add_mul]
      · simp [List.count_append, he]
      · simp [epochsOf_append, hcur2, Epochs.step]
      · simp [epochsOf_append, hcur2, Epochs.step, List.count_append, hlen]
      · simp only [Bool.false_eq_true, if_false, List.append_assoc, epochsOf_append]
        simp only [List.foldl_append, List.foldl_cons, List.foldl_nil, Epochs.step, hcur2]
        intro seg hseg
        rcases List.mem_append.mp hseg with h1 | h1
        · exact hsegs seg h1
        · simp only [List.mem_singleton] at h1
          rw [h1]; exact hperm
      · simp only [Bool.false_eq_true, if_false, List.append_assoc]
        apply ordering_append N s.trace ([Event.update_epoch] ++ [Event.shuffle]) hpre
        have hcnt : ([Event.update_epoch] ++ [Event.shuffle]).count Event.update_epoch = 1 := by
          decide
        rw [hcnt, he, hu, hb]
        obtain ⟨c, hc⟩ : ∃ c, s.trace.count Event.shuffle = c + 1 := ⟨_, (Nat.sub_add_cancel hs1).symm⟩
        rw [hc]
        simp [Nat.add_mul]
  · simp only [hb, if_false]
    have hf : s.first = false := by
      cases hf : s.first with
      | true => exact absurd (hfirst hf).1 hb
      | false => rfl
    obtain ⟨_, hs1, hu, he, hcur, hlen, hsegs⟩ := hlater hf
    exact ⟨hperm, by omega, hf, hs1, hu, he, hcur, hlen, hsegs, hpre⟩

theorem trainingIteration_inv (W : World α ρ) (training : List (List Int))
    (hN1 : 1 ≤ training.length) (hN : training.length < 2 ^ 32) (s : TrainState α ρ)
    (hinv : TrainInvariant training.length s) :
    ∃ s1, trainingIteration W training s = some s1 ∧ TrainInvariant training.length s1 ∧
      s1.trace.count Event.update = s.trace.count Event.update + 1 ∧
      s1.best = s.best ∧ s1.report = s.report := by
  have hmid := epochBoundary_mid W training.length hN1 s hinv
  have hbest : (epochBoundary W training.length s).best = s.best := by
    unfold epochBoundary; split <;> rfl
  have hreport : (epochBoundary W training.length s).report = s.report := by
    unfold epochBoundary; split <;> rfl
  have hupd : (epochBoundary W training.length s).trace.count Event.update
      = s.trace.count Event.update := by
    unfold epochBoundary
    split
    · cases s.first <;> simp [List.count_append]
    · rfl
  generalize hs2 : epochBoundary W training.length s = s2 at hmid hbest hreport hupd
  obtain ⟨hperm, hsi, hfirst, hs1, hu, he, hcur, hlen, hsegs, hpre⟩ := hmid
  have holen : s2.order.length = training.length := by
    rw [hperm.length_eq, List.length_range]
  have hsi2 : s2.si < s2.order.length := by omega
  have hk : s2.order[s2.si]? = some s2.order[s2.si] := List.getElem?_eq_getElem hsi2
  have hkN : s2.order[s2.si] < training.length := by
    have hmem : s2.order[s2.si] ∈ List.range training.length :=
      hperm.subset (List.getElem_mem hsi2)
    exact List.mem_range.mp hmem
  have hsent : training[s2.order[s2.si]]? = some training[s2.order[s2.si]] :=
    List.getElem?_eq_getElem hkN
  have hu32 : u32 (s2.si + 1) = s2.si + 1 := u32_of_lt (by omega)
  have hstep : trainingIteration W training s = some
      { s2 with si := s2.si + 1, lines := u32 (s2.lines + 1),
                trace := s2.trace ++ [Event.buildGraph s2.order[s2.si], Event.forward,
                  Event.backward, Event.update] } := by
    simp only [trainingIteration, hs2, hk, hsent, hu32]
  refine ⟨_, hstep, ⟨hperm, (by show s2.si + 1 ≤ training.length; omega), ?_, ?_, ?_⟩,
    ?_, hbest, hreport⟩
  · intro hf
    exact absurd (hfirst.symm.trans hf) (by simp)
  · intro _
    refine ⟨(by show 1 ≤ s2.si + 1; omega), ?_, ?_, ?_, ?_, ?_, ?_⟩
    · simpa [List.count_append] using hs1
    · simp only [List.count_append]
      have h1 : [Event.buildGraph s2.order[s2.si], Event.forward, Event.backward,
          Event.update].count Event.update = 1 := by simp [List.count_cons]
      have h2 : [Event.buildGraph s2.order[s2.si], Event.forward, Event.backward,
          Event.update].count Event.shuffle = 0 := by simp [List.count_cons]
      simp only [h1, h2, hu, Nat.add_zero, hu32]
      omega
    · simpa [List.count_append, List.count_cons] using he
    · simp only [epochsOf_append, List.foldl_cons, List.foldl_nil, Epochs.step, hcur,
        Option.map_some']
      rw [List.take_succ, hk]
      rfl
    · simpa [epochsOf_append, Epochs.step, List.count_append, List.count_cons] using hlen
    · simpa [epochsOf_append, Epochs.step] using hsegs
  · apply ordering_append _ _ _ hpre
    have h1 : [Event.buildGraph s2.order[s2.si], Event.forward, Event.backward,
        Event.update].count Event.update_epoch = 0 := by simp [List.count_cons]
    rw [h1]
    exact hpre _ (List.prefix_refl _)
  · show (s2.trace ++ _).count Event.update = _
    rw [List.count_append, hupd]
    simp [List.count_cons]

theorem read_in_bounds (training : List (List Int)) (s2 : TrainState α ρ)
    (hmid : MidInvariant training.length s2) :
    ∃ k sent, s2.order[s2.si]? = some k ∧ training[k]? = some sent := by
  obtain ⟨hperm, hsi, _⟩ := hmid
  have hsi2 : s2.si < s2.order.length := by
    rw [hperm.length_eq, List.length_range]; exact hsi
  have hkN : s2.order[s2.si] < training.length :=
    List.mem_range.mp (hperm.subset (List.getElem_mem hsi2))
  exact ⟨_, _, List.getElem?_eq_getElem hsi2, List.getElem?_eq_getElem hkN⟩

theorem trainingIterations_inv (W : World α ρ) (training : List (List Int))
    (hN1 : 1 ≤ training.length) (hN : training.length < 2 ^ 32) (j : Nat) (s : TrainState α ρ)
    (hinv : TrainInvariant training.length s) :
    ∃ s1, trainingIterations W training j s = some s1 ∧ TrainInvariant training.length s1 ∧
      s1.trace.count Event.update = s.trace.count Event.update + j ∧
      s1.best = s.best ∧ s1.report = s.report := by
  induction j generalizing s with
  | zero => exact ⟨s, rfl, hinv, rfl, rfl, rfl⟩
  | succ j ih =>
    obtain ⟨s1, h1, hinv1, hc1, hb1, hr1⟩ := trainingIteration_inv W training hN1 hN s hinv
    obtain ⟨s2, h2, hinv2, hc2, hb2, hr2⟩ := ih s1 hinv1
    refine ⟨s2, ?_, hinv2, by omega, hb2.trans hb1, hr2.trans hr1⟩
    simp only [trainingIterations, h1]
    exact h2

theorem count_map_evaluate (x : Event) (hx : ∀ k, x ≠ Event.evaluate k) (l : List Nat) :
    (l.map Event.evaluate).count x = 0 := by
  rw [List.count_eq_zero]
  intro hmem
  obtain ⟨k, _, hk⟩ := List.mem_map.mp hmem
  exact hx k hk.symm

theorem foldl_step_evaluate (l : List Nat) (E : Epochs) :
    (l.map Event.evaluate).foldl Epochs.step E = E := by
  induction l with
  | nil => rfl
  | cons k l ih => simpa [Epochs.step] using ih

/-- Appending events that are neither updates, shuffles, epoch advances nor
training graph builds keeps the invariant. -/
theorem invariant_append_neutral (N : Nat) (s : TrainState α ρ) (e : List Event) (b : α)
    (r : Int) (hinv : TrainInvariant N s)
    (h1 : e.count Event.update = 0) (h2 : e.count Event.shuffle = 0)
    (h3 : e.count Event.update_epoch = 0) (h4 : ∀ E, e.foldl Epochs.step E = E) :
    TrainInvariant N { s with best := b, report := r, trace := s.trace ++ e } := by
  obtain ⟨hperm, hsi, hfirst, hlater, hpre⟩ := hinv
  refine ⟨hperm, hsi, ?_, ?_, ?_⟩
  · intro hf
    obtain ⟨a1, a2, a3, a4, a5⟩ := hfirst hf
    refine ⟨a1, ?_, ?_, ?_, ?_⟩
    · show (s.trace ++ e).count _ = 0
      rw [List.count_append, h1, a2]
    · show (s.trace ++ e).count _ = 0
      rw [List.count_append, h2, a3]
    · show (s.trace ++ e).count _ = 0
      rw [List.count_append, h3, a4]
    · show epochsOf (s.trace ++ e) = _
      rw [epochsOf_append, h4, a5]
  · intro hf
    obtain ⟨a1, a2, a3, a4, a5, a6, a7⟩ := hlater hf
    have hc1 : (s.trace ++ e).count Event.update = s.trace.count Event.update := by
      rw [List.count_append, h1]; rfl
    have hc2 : (s.trace ++ e).count Event.shuffle = s.trace.count Event.shuffle := by
      rw [List.count_append, h2]; rfl
    have hc3 : (s.trace ++ e).count Event.update_epoch = s.trace.count Event.update_epoch := by
      rw [List.count_append, h3]; rfl
    have hc4 : epochsOf (s.trace ++ e) = epochsOf s.trace := by
      rw [epochsOf_append, h4]
    show 1 ≤ s.si ∧ 1 ≤ (s.trace ++ e).count Event.shuffle ∧
      (s.trace ++ e).count Event.update = ((s.trace ++ e).count Event.shuffle - 1) * N + s.si ∧
      (s.trace ++ e).count Event.update_epoch + 1 = (s.trace ++ e).count Event.shuffle ∧
      (epochsOf (s.trace ++ e)).current = some (s.order.take s.si) ∧
      (epochsOf (s.trace ++ e)).complete.length + 1 = (s.trace ++ e).count Event.shuffle ∧
      ∀ seg ∈ (epochsOf (s.trace ++ e)).complete, seg.Perm (List.range N)
    rw [hc1, hc2, hc3, hc4]
    exact ⟨a1, a2, a3, a4, a5, a6, a7⟩
  · show ∀ p, p <+: s.trace ++ e → _
    apply ordering_append N s.trace e hpre
    rw [h3]
    exact hpre _ (List.prefix_refl _)

theorem reportAndEvaluate_form [LinearOrder α] (W : World α ρ) (dev : List (List Int))
    (s : TrainState α ρ) :
    ∃ (b : α) (e : List Event),
      e.count Event.update = 0 ∧ e.count Event.shuffle = 0 ∧ e.count Event.update_epoch = 0 ∧
      (∀ E, e.foldl Epochs.step E = E) ∧
      (reportAndEvaluate W dev s
          = Outcome.running { s with best := b, report := s.report + 1, trace := s.trace ++ e } ∨
       reportAndEvaluate W dev s
          = Outcome.terminated { s with best := b, report := s.report + 1,
                                        trace := s.trace ++ e }) := by
  have hev1 := count_map_evaluate Event.update (by intro k; simp) (List.range dev.length)
  have hev2 := count_map_evaluate Event.shuffle (by intro k; simp) (List.range dev.length)
  have hev3 := count_map_evaluate Event.update_epoch (by intro k; simp) (List.range dev.length)
  have hev4 := foldl_step_evaluate (List.range dev.length)
  unfold reportAndEvaluate
  by_cases hc : toUnsigned (s.report + 1) % dev_every_i_reports = 0
  · simp only [hc, if_true]
    by_cases ha : (devCheckpoint (W.serialize (s.report + 1)) s.best
        (W.dloss (s.report + 1))).attempted = true
    · refine ⟨(devCheckpoint (W.serialize (s.report + 1)) s.best (W.dloss (s.report + 1))).best,
        [Event.status] ++ (List.range dev.length).map Event.evaluate
          ++ [Event.save (W.serialize (s.report + 1))], ?_, ?_, ?_, ?_, ?_⟩
      · simp [List.count_append, hev1, List.count_cons]
      · simp [List.count_append, hev2, List.count_cons]
      · simp [List.count_append, hev3, List.count_cons]
      · intro E
        simp [List.foldl_append, hev4, Epochs.step]
      · by_cases ht : (devCheckpoint (W.serialize (s.report + 1)) s.best
            (W.dloss (s.report + 1))).thrown = true
        · right; simp [ha, ht]
        · left; simp [ha, ht]
    · refine ⟨(devCheckpoint (W.serialize (s.report + 1)) s.best (W.dloss (s.report + 1))).best,
        [Event.status] ++ (List.range dev.length).map Event.evaluate, ?_, ?_, ?_, ?_, ?_⟩
      · simp [List.count_append, hev1, List.count_cons]
      · simp [List.count_append, hev2, List.count_cons]
      · simp [List.count_append, hev3, List.count_cons]
      · intro E
        simp [List.foldl_append, hev4, Epochs.step]
      · by_cases ht : (devCheckpoint (W.serialize (s.report + 1)) s.best
            (W.dloss (s.report + 1))).thrown = true
        · right; simp [ha, ht]
        · left; simp [ha, ht]
  · refine ⟨s.best, [Event.status], by simp [List.count_cons], by simp [List.count_cons],
      by simp [List.count_cons], ?_, ?_⟩
    · intro E; simp [Epochs.step]
    · left; simp [hc]

theorem whileBody_inv [LinearOrder α] (W : World α ρ) (training dev : List (List Int))
    (hN1 : 1 ≤ training.length) (hN : training.length < 2 ^ 32) (s : TrainState α ρ)
    (hinv : TrainInvariant training.length s) :
    ∃ s1, (whileBody W training dev s = Outcome.running s1 ∨
        whileBody W training dev s = Outcome.terminated s1) ∧
      TrainInvariant training.length s1 ∧
      s1.trace.count Event.update = s.trace.count Event.update + report_every_i ∧
      s1.report = s.report + 1 := by
  obtain ⟨s1, h1, hinv1, hc1, _, hr1⟩ :=
    trainingIterations_inv W training hN1 hN report_every_i s hinv
  obtain ⟨b, e, e1, e2, e3, e4, hform⟩ := reportAndEvaluate_form W dev s1
  refine ⟨{ s1 with best := b, report := s1.report + 1, trace := s1.trace ++ e }, ?_,
    invariant_append_neutral _ s1 e b _ hinv1 e1 e2 e3 e4, ?_, ?_⟩
  · simp only [whileBody, h1]
    exact hform
  · show (s1.trace ++ e).count Event.update = _
    rw [List.count_append, e1, hc1]; rfl
  · show s1.report + 1 = _
    rw [hr1]

theorem mainLoop_inv [LinearOrder α] (W : World α ρ) (training dev : List (List Int))
    (hN1 : 1 ≤ training.length) (hN : training.length < 2 ^ 32) (n : Nat) (s : TrainState α ρ)
    (hinv : TrainInvariant training.length s) :
    (∃ s1, mainLoop W training dev n s = Outcome.running s1 ∧
      TrainInvariant training.length s1 ∧
      s1.trace.count Event.update = s.trace.count Event.update + report_every_i * n ∧
      s1.report = s.report + n) ∨
    (∃ s1, mainLoop W training dev n s = Outcome.terminated s1 ∧
      TrainInvariant training.length s1) := by
  induction n generalizing s with
  | zero => exact Or.inl ⟨s, rfl, hinv, by simp, by simp⟩
  | succ n ih =>
    obtain ⟨s1, hw, hinv1, hc1, hr1⟩ := whileBody_inv W training dev hN1 hN s hinv
    rcases hw with hw | hw
    · rcases ih s1 hinv1 with ⟨s2, h2, hinv2, hc2, hr2⟩ | ⟨s2, h2, hinv2⟩
      · refine Or.inl ⟨s2, ?_, hinv2, ?_, ?_⟩
        · simp only [mainLoop, hw]; exact h2
        · rw [hc2, hc1, Nat.mul_succ]; omega
        · rw [hr2, hr1]; push_cast; ring
      · refine Or.inr ⟨s2, ?_, hinv2⟩
        simp only [mainLoop, hw]; exact h2
    · refine Or.inr ⟨s1, ?_, hinv1⟩
      simp only [mainLoop, hw]

theorem initialState_inv (best : α) (rng : ρ) (training : List (List Int))
    (hN : training.length < 2 ^ 32) :
    TrainInvariant training.length (initialState best rng training [Event.freeze]) := by
  have hu : u32 training.length = training.length := u32_of_lt hN
  refine ⟨List.Perm.refl _, ?_, ?_, ?_, ?_⟩
  · show u32 training.length ≤ _
    rw [hu]
  · intro _
    have c1 : [Event.freeze].count Event.update = 0 := by decide
    have c2 : [Event.freeze].count Event.shuffle = 0 := by decide
    have c3 : [Event.freeze].count Event.update_epoch = 0 := by decide
    have c4 : epochsOf [Event.freeze] = { complete := [], current := none } := by decide
    exact ⟨hu, c1, c2, c3, c4⟩
  · intro hf
    exact absurd hf (by simp [initialState])
  · intro p hp
    have : p.count Event.update_epoch ≤ [Event.freeze].count Event.update_epoch :=
      hp.sublist.count_le _
    have h0 : [Event.freeze].count Event.update_epoch = 0 := by decide
    have hz : p.count Event.update_epoch = 0 := by omega
    rw [hz]; simp

theorem counts_of_invariant (N : Nat) (hN1 : 1 ≤ N) (s : TrainState α ρ)
    (hinv : TrainInvariant N s) :
    (1 ≤ s.trace.count Event.update →
      s.trace.count Event.shuffle = (s.trace.count Event.update + N - 1) / N ∧
      s.trace.count Event.update_epoch = (s.trace.count Event.update + N - 1) / N - 1) ∧
    (s.trace.count Event.update = 0 →
      s.trace.count Event.shuffle = 0 ∧ s.trace.count Event.update_epoch = 0) := by
  obtain ⟨_, hsi, hfirst, hlater, _⟩ := hinv
  cases hf : s.first with
  | true =>
    obtain ⟨_, a2, a3, a4, _⟩ := hfirst hf
    exact ⟨fun h => by omega, fun _ => ⟨a3, a4⟩⟩
  | false =>
    obtain ⟨b1, b2, b3, b4, _⟩ := hlater hf
    obtain ⟨c, hc⟩ : ∃ c, s.trace.count Event.shuffle = c + 1 :=
      ⟨_, (Nat.sub_add_cancel b2).symm⟩
    rw [hc] at b3 b4 ⊢
    simp only [Nat.add_sub_cancel] at b3
    have hdiv : (s.trace.count Event.update + N - 1) / N = c + 1 := by
      apply Nat.div_eq_of_lt_le
      · rw [b3, Nat.add_mul]; omega
      · rw [b3, Nat.succ_mul, Nat.add_mul]; omega
    refine ⟨fun _ => ⟨hdiv.symm, by rw [hdiv]; omega⟩, fun h0 => ?_⟩
    omega

theorem devCheckpoint_thrown [LinearOrder α] (w : WriteResult) (best d : α)
    (h : (devCheckpoint w best d).thrown = true) : w = WriteResult.fails := by
  unfold devCheckpoint at h
  split at h
  · cases w with
    | ok => simp at h
    | fails => rfl
  · simp at h

theorem reportAndEvaluate_terminated [LinearOrder α] (W : World α ρ) (dev : List (List Int))
    (s s1 : TrainState α ρ) (h : reportAndEvaluate W dev s = Outcome.terminated s1) :
    W.serialize (s.report + 1) = WriteResult.fails := by
  unfold reportAndEvaluate at h
  by_cases hc : toUnsigned (s.report + 1) % dev_every_i_reports = 0
  · simp only [hc, if_true] at h
    by_cases ht : (devCheckpoint (W.serialize (s.report + 1)) s.best
        (W.dloss (s.report + 1))).thrown = true
    · exact devCheckpoint_thrown _ _ _ ht
    · simp [ht] at h
  · simp [hc] at h

theorem mainLoop_running [LinearOrder α] (W : World α ρ) (training dev : List (List Int))
    (hN1 : 1 ≤ training.length) (hN : training.length < 2 ^ 32)
    (hok : ∀ r, W.serialize r = WriteResult.ok) (n : Nat) (s : TrainState α ρ)
    (hinv : TrainInvariant training.length s) :
    ∃ s1, mainLoop W training dev n s = Outcome.running s1 := by
  induction n generalizing s with
  | zero => exact ⟨s, rfl⟩
  | succ n ih =>
    obtain ⟨s1, h1, hinv1, _⟩ := trainingIterations_inv W training hN1 hN report_every_i s hinv
    obtain ⟨s2, hw, hinv2, _⟩ := whileBody_inv W training dev hN1 hN s hinv
    rcases hw with hw | hw
    · obtain ⟨s3, h3⟩ := ih s2 hinv2
      exact ⟨s3, by simp only [mainLoop, hw]; exact h3⟩
    · simp only [whileBody, h1] at hw
      have := reportAndEvaluate_terminated W dev s1 s2 hw
      rw [hok] at this
      exact absurd this (by simp)

/-- C9: for a training corpus of `N` sentences, `1 ≤ N < 2^32`, the loop never
reads out of bounds and keeps running while writes succeed; when `m ≥ 1`
examples have been processed (`m` updates in the trace) there have been
`⌈m/N⌉` shuffles and `⌈m/N⌉ - 1` calls of `update_epoch`; before the first
example there is neither; at every moment the number of `update_epoch` calls
times `N` is at most the number of updates made, so none precedes the first
update. -/
theorem C9_epoch_boundary_rule [LinearOrder α] (W : World α ρ)
    (training dev : List (List Int)) (best : α) (rng : ρ)
    (hN1 : 1 ≤ training.length) (hN : training.length < 2 ^ 32) :
    (∀ n, mainLoop W training dev n (initialState best rng training [Event.freeze])
      ≠ Outcome.undefined) ∧
    ((∀ r, W.serialize r = WriteResult.ok) → ∀ n, ∃ s,
      mainLoop W training dev n (initialState best rng training [Event.freeze])
        = Outcome.running s) ∧
    (∀ n s, mainLoop W training dev n (initialState best rng training [Event.freeze])
        = Outcome.running s →
      ∀ j, j ≤ report_every_i → ∃ s1, trainingIterations W training j s = some s1 ∧
        s1.trace.count Event.update = report_every_i * n + j ∧
        (1 ≤ s1.trace.count Event.update →
          s1.trace.count Event.shuffle
            = (s1.trace.count Event.update + training.length - 1) / training.length ∧
          s1.trace.count Event.update_epoch
            = (s1.trace.count Event.update + training.length - 1) / training.length - 1) ∧
        (s1.trace.count Event.update = 0 →
          s1.trace.count Event.shuffle = 0 ∧ s1.trace.count Event.update_epoch = 0) ∧
        (∀ p, p <+: s1.trace →
          p.count Event.update_epoch * training.length ≤ p.count Event.update)) := by
  have h0 := initialState_inv best rng training hN
  refine ⟨?_, ?_, ?_⟩
  · intro n
    rcases mainLoop_inv W training dev hN1 hN n _ h0 with ⟨s1, h1, _⟩ | ⟨s1, h1, _⟩
    · rw [h1]; simp
    · rw [h1]; simp
  · intro hok n
    exact mainLoop_running W training dev hN1 hN hok n _ h0
  · intro n s hrun j _
    rcases mainLoop_inv W training dev hN1 hN n _ h0 with ⟨s1, h1, hinv1, hc1, _⟩ | ⟨s1, h1, _⟩
    · rw [hrun] at h1
      simp only [Outcome.running.injEq] at h1
      subst h1
      obtain ⟨s2, h2, hinv2, hc2, _⟩ := trainingIterations_inv W training hN1 hN j s hinv1
      have hcounts := counts_of_invariant training.length hN1 s2 hinv2
      refine ⟨s2, h2, ?_, hcounts.1, hcounts.2, hinv2.2.2.2.2⟩
      rw [hc2, hc1]
      have : (initialState best rng training [Event.freeze]).trace.count Event.update = 0 := by
        show [Event.freeze].count Event.update = 0
        decide
      rw [this]; omega
    · rw [hrun] at h1
      exact absurd h1 (by simp)

/-- C10: for a training corpus of `N` sentences, `1 ≤ N < 2^32`, at every read
of `training[order[si]]` the vector `order` is a permutation of `0..N-1`,
`si < N` and both reads are in bounds; the sentences processed between two
consecutive shuffles are a permutation of `0..N-1` (each sentence exactly
once), those processed since the last shuffle are the first `si` entries of
`order`; the report and held-out evaluation block leaves `si`, `order` and
`first` unchanged, whatever the relation of `N` to the reporting interval. -/
theorem C10_epoch_coverage [LinearOrder α] (W : World α ρ)
    (training dev : List (List Int)) (best : α) (rng : ρ)
    (hN1 : 1 ≤ training.length) (hN : training.length < 2 ^ 32) :
    (∀ n s, mainLoop W training dev n (initialState best rng training [Event.freeze])
        = Outcome.running s →
      ∀ j, j ≤ report_every_i → ∃ s1, trainingIterations W training j s = some s1 ∧
        (epochBoundary W training.length s1).order.Perm (List.range training.length) ∧
        (epochBoundary W training.length s1).si < training.length ∧
        (∃ k sent, (epochBoundary W training.length s1).order[
            (epochBoundary W training.length s1).si]? = some k ∧ training[k]? = some sent) ∧
        (∃ s2, trainingIteration W training s1 = some s2) ∧
        (∀ seg ∈ (epochsOf s1.trace).complete, seg.Perm (List.range training.length)) ∧
        (epochsOf s1.trace).complete.length = s1.trace.count Event.shuffle - 1 ∧
        (s1.first = false → (epochsOf s1.trace).current = some (s1.order.take s1.si))) ∧
    (∀ (s s1 : TrainState α ρ), (reportAndEvaluate W dev s = Outcome.running s1 ∨
        reportAndEvaluate W dev s = Outcome.terminated s1) →
      s1.si = s.si ∧ s1.order = s.order ∧ s1.first = s.first) := by
  have h0 := initialState_inv best rng training hN
  refine ⟨?_, ?_⟩
  · intro n s hrun j _
    rcases mainLoop_inv W training dev hN1 hN n _ h0 with ⟨s1, h1, hinv1, _⟩ | ⟨s1, h1, _⟩
    · rw [hrun] at h1
      simp only [Outcome.running.injEq] at h1
      subst h1
      obtain ⟨s2, h2, hinv2, _⟩ := trainingIterations_inv W training hN1 hN j s hinv1
      have hmid := epochBoundary_mid W training.length hN1 s2 hinv2
      obtain ⟨s3, h3, _⟩ := trainingIteration_inv W training hN1 hN s2 hinv2
      refine ⟨s2, h2, hmid.1, hmid.2.1, read_in_bounds training _ hmid, ⟨s3, h3⟩, ?_, ?_, ?_⟩
      · obtain ⟨_, _, hfirst, hlater, _⟩ := hinv2
        cases hf : s2.first with
        | true =>
          rw [(hfirst hf).2.2.2.2]
          simp
        | false => exact (hlater hf).2.2.2.2.2.2
      · obtain ⟨_, _, hfirst, hlater, _⟩ := hinv2
        cases hf : s2.first with
        | true =>
          rw [(hfirst hf).2.2.2.2, (hfirst hf).2.2.1]
          rfl
        | false =>
          have := (hlater hf).2.2.2.2.2.1
          omega
      · intro hf
        exact (hinv2.2.2.2.1 hf).2.2.2.2.1
    · rw [hrun] at h1
      exact absurd h1 (by simp)
  · intro s s1 h
    obtain ⟨b, e, _, _, _, _, hform⟩ := reportAndEvaluate_form W dev s
    rcases h with h | h <;> rcases hform with hf | hf <;> rw [hf] at h <;>
      first
      | (simp only [Outcome.running.injEq] at h; subst h; exact ⟨rfl, rfl, rfl⟩)
      | (simp only [Outcome.terminated.injEq] at h; subst h; exact ⟨rfl, rfl, rfl⟩)
      | exact absurd h (by simp)

end Training

/-- Witness of `C9_epoch_boundary_rule`: three training sentences, the rotating
shuffle; the loop is running after two reporting intervals. -/
theorem C9_epoch_boundary_rule_witness :
    1 ≤ [[(0 : Int), 2, 1], [0, 3, 1], [0, 1]].length ∧
    [[(0 : Int), 2, 1], [0, 3, 1], [0, 1]].length < 2 ^ 32 ∧
    ∃ s, mainLoop rotatingWorld [[0, 2, 1], [0, 3, 1], [0, 1]] [[0, 1]] 2
        (initialState initialBest 0 [[0, 2, 1], [0, 3, 1], [0, 1]] [Event.freeze])
      = Outcome.running s :=
  ⟨by decide, by decide,
    (C9_epoch_boundary_rule rotatingWorld [[0, 2, 1], [0, 3, 1], [0, 1]] [[0, 1]] initialBest 0
      (by decide) (by decide)).2.1 (fun _ => rfl) 2⟩

/-- Witness of `C10_epoch_coverage`: three training sentences, the rotating
shuffle; the position read after seven examples is in bounds. -/
theorem C10_epoch_coverage_witness :
    1 ≤ [[(0 : Int), 2, 1], [0, 3, 1], [0, 1]].length ∧
    [[(0 : Int), 2, 1], [0, 3, 1], [0, 1]].length < 2 ^ 32 ∧
    ∃ s1, trainingIterations rotatingWorld [[0, 2, 1], [0, 3, 1], [0, 1]] 7
        (initialState initialBest 0 [[0, 2, 1], [0, 3, 1], [0, 1]] [Event.freeze]) = some s1 ∧
      (epochBoundary rotatingWorld [[(0 : Int), 2, 1], [0, 3, 1], [0, 1]].length s1).si
        < [[(0 : Int), 2, 1], [0, 3, 1], [0, 1]].length :=
  ⟨by decide, by decide,
    ((C10_epoch_coverage rotatingWorld [[0, 2, 1], [0, 3, 1], [0, 1]] [[0, 1]] initialBest 0
      (by decide) (by decide)).1 0 _ rfl 7 (by decide)).imp
      (fun _ h => ⟨h.1, h.2.2.1⟩)⟩

end EncDec
